import Mathlib

/-!
Verification of the item CRUD HTTP service (`src/index.js`).

The service is embedded shallowly:
* JavaScript values reaching the handlers are modelled by `JsVal`; JavaScript
  numbers are modelled exactly (`JsNum` keeps finite values as rationals and
  has explicit NaN / ±Infinity constructors; binary-float rounding never
  matters for the verified properties, which only compare numbers to zero or
  store them unchanged).
* `JSON.parse` is modelled by `jsonParse`, a fuel-based recursive-descent
  parser for the JSON grammar accepted by `JSON.parse` (numbers are kept
  exact, `\uXXXX` escapes map to the corresponding scalar value, with the
  Unicode replacement character standing in for unpaired surrogates, which
  Lean strings cannot hold).
* File I/O becomes explicit state passing: the collection persisted in
  `items.json` is the `List JsObj` threaded through `handleItems`, and
  `readItems` acts on an explicit `FileState`.  `randomUUID()` becomes the
  explicit `genId` argument of the POST handler.
* Node's POSIX `path.normalize` / `path.join` are modelled on character lists
  (`normalizeCL`, `joinCL`), and the `serveStaticHtml` file resolution by
  `serveStaticPath`.
-/

namespace ItemsServer

/-- A JavaScript number: NaN, ±Infinity, or a finite value (kept exact). -/
inductive JsNum where
  | nan : JsNum
  | inf : JsNum
  | neginf : JsNum
  | fin : ℚ → JsNum
deriving DecidableEq

/-- A JavaScript value as it can reach the handlers: `undefined`, `null`,
booleans, numbers, strings, arrays and plain objects (ordered key/value
lists, as JavaScript objects are). -/
inductive JsVal where
  | vUndefined : JsVal
  | vNull : JsVal
  | vBool : Bool → JsVal
  | vNum : JsNum → JsVal
  | vStr : String → JsVal
  | vArr : List JsVal → JsVal
  | vObj : List (String × JsVal) → JsVal

/-- A JavaScript object (the shape of stored items). -/
abbrev JsObj := List (String × JsVal)

/-- `isFinite` on a JavaScript number. -/
def JsNum.finite : JsNum → Bool
  | .fin _ => true
  | _ => false

/-- `x < 0` on a JavaScript number (`NaN < 0` is `false`). -/
def JsNum.ltZero : JsNum → Bool
  | .fin q => decide (q < 0)
  | .neginf => true
  | _ => false

/-- JavaScript truthiness of a value. -/
def truthy : JsVal → Bool
  | .vUndefined => false
  | .vNull => false
  | .vBool b => b
  | .vNum .nan => false
  | .vNum (.fin q) => decide (q ≠ 0)
  | .vNum _ => true
  | .vStr s => decide (s ≠ "")
  | .vArr _ => true
  | .vObj _ => true

/-! ### The JSON parser (model of `JSON.parse`) -/

/-- JSON whitespace. -/
def isJsonWs (c : Char) : Bool :=
  c = ' ' ∨ c = '\t' ∨ c = '\n' ∨ c = '\r'

/-- Skip leading JSON whitespace. -/
def skipWs : List Char → List Char
  | [] => []
  | c :: cs => if isJsonWs c then skipWs cs else c :: cs

/-- Decimal digit test. -/
def isDigitCh (c : Char) : Bool := '0' ≤ c ∧ c ≤ '9'

/-- Value of a decimal digit. -/
def digitVal (c : Char) : Nat := c.toNat - '0'.toNat

/-- Read a maximal run of decimal digits. -/
def readDigits : List Char → (List Char × List Char)
  | [] => ([], [])
  | c :: cs =>
    if isDigitCh c then
      let (ds, rest) := readDigits cs
      (c :: ds, rest)
    else ([], c :: cs)

/-- Numeric value of a digit run. -/
def digitsToNat (ds : List Char) : Nat :=
  ds.foldl (fun acc c => acc * 10 + digitVal c) 0

/-- Hexadecimal digit value, if any. -/
def hexVal (c : Char) : Option Nat :=
  if isDigitCh c then some (digitVal c)
  else if 'a' ≤ c ∧ c ≤ 'f' then some (c.toNat - 'a'.toNat + 10)
  else if 'A' ≤ c ∧ c ≤ 'F' then some (c.toNat - 'A'.toNat + 10)
  else none

/-- Assemble the rational value of a JSON number literal: sign, integer
part, fraction digits, signed exponent.  (The integer case is written
without field operations so that concrete runs reduce in the kernel; it
coincides with the general formula, whose fraction is `0 / 10^0` and whose
exponent factor is `10^0`.) -/
def mkNumVal (neg : Bool) (ip : Nat) (fds : List Char) (eneg : Bool) (e : Nat) : ℚ :=
  let mag : ℚ :=
    if fds = [] ∧ e = 0 then (ip : ℚ)
    else
      ((ip : ℚ) + (digitsToNat fds : ℚ) / (10 : ℚ) ^ fds.length) *
        (10 : ℚ) ^ (if eneg then -(e : ℤ) else (e : ℤ))
  if neg then -mag else mag

/-- Parse the optional fraction and exponent of a number, given the already
parsed sign and integer part.  Returns the value and the remaining input. -/
def pNumTail (neg : Bool) (ip : Nat) (cs : List Char) : Option (ℚ × List Char) :=
  let (fds, afterFrac) :=
    match cs with
    | '.' :: cs' =>
      let (ds, rest) := readDigits cs'
      (ds, if ds = [] then none else some rest)
    | _ => ([], some cs)
  match afterFrac with
  | none => none
  | some cs1 =>
    match cs1 with
    | 'e' :: cs2 | 'E' :: cs2 =>
      let (eneg, cs3) :=
        match cs2 with
        | '+' :: cs3 => (false, cs3)
        | '-' :: cs3 => (true, cs3)
        | _ => (false, cs2)
      let (eds, rest) := readDigits cs3
      if eds = [] then none
      else some (mkNumVal neg ip fds eneg (digitsToNat eds), rest)
    | _ => some (mkNumVal neg ip fds false 0, cs1)

/-- Parse a JSON number literal (sign and integer part, then tail). -/
def pNumber (cs : List Char) : Option (ℚ × List Char) :=
  let (neg, cs1) :=
    match cs with
    | '-' :: cs' => (true, cs')
    | _ => (false, cs)
  match cs1 with
  | '0' :: cs2 => pNumTail neg 0 cs2
  | c :: _ =>
    if isDigitCh c ∧ c ≠ '0' then
      let (ds, rest) := readDigits cs1
      pNumTail neg (digitsToNat ds) rest
    else none
  | [] => none

/-- Parse the body of a JSON string literal (the opening quote is consumed).
Escapes are decoded; `\uXXXX` yields the scalar value, or the replacement
character for surrogate code units (Lean strings hold scalar values only). -/
def pStringBody : List Char → Option (List Char × List Char)
  | [] => none
  | '"' :: rest => some ([], rest)
  | '\\' :: e :: rest =>
    match e with
    | '"' => (pStringBody rest).map (fun (s, r) => ('"' :: s, r))
    | '\\' => (pStringBody rest).map (fun (s, r) => ('\\' :: s, r))
    | '/' => (pStringBody rest).map (fun (s, r) => ('/' :: s, r))
    | 'b' => (pStringBody rest).map (fun (s, r) => ('\x08' :: s, r))
    | 'f' => (pStringBody rest).map (fun (s, r) => ('\x0c' :: s, r))
    | 'n' => (pStringBody rest).map (fun (s, r) => ('\n' :: s, r))
    | 'r' => (pStringBody rest).map (fun (s, r) => ('\r' :: s, r))
    | 't' => (pStringBody rest).map (fun (s, r) => ('\t' :: s, r))
    | 'u' =>
      match rest with
      | h1 :: h2 :: h3 :: h4 :: rest' =>
        match hexVal h1, hexVal h2, hexVal h3, hexVal h4 with
        | some a, some b, some c, some d =>
          let code := ((a * 16 + b) * 16 + c) * 16 + d
          let ch := if 0xD800 ≤ code ∧ code ≤ 0xDFFF then '�' else Char.ofNat code
          (pStringBody rest').map (fun (s, r) => (ch :: s, r))
        | _, _, _, _ => none
      | _ => none
    | _ => none
  | c :: rest =>
    if c.toNat < 0x20 then none
    else (pStringBody rest).map (fun (s, r) => (c :: s, r))

/-- Insert a parsed object member the way `JSON.parse` does: a repeated key
keeps its first position but takes the last value. -/
def objSet (o : JsObj) (k : String) (v : JsVal) : JsObj :=
  if o.any (fun p => p.1 == k) then
    o.map (fun p => if p.1 == k then (k, v) else p)
  else o ++ [(k, v)]

mutual

/-- Parse one JSON value (fuel-based recursive descent). -/
def pVal : Nat → List Char → Option (JsVal × List Char)
  | 0, _ => none
  | f + 1, cs =>
    match skipWs cs with
    | '"' :: rest => (pStringBody rest).map (fun (s, r) => (JsVal.vStr ⟨s⟩, r))
    | 't' :: 'r' :: 'u' :: 'e' :: rest => some (.vBool true, rest)
    | 'f' :: 'a' :: 'l' :: 's' :: 'e' :: rest => some (.vBool false, rest)
    | 'n' :: 'u' :: 'l' :: 'l' :: rest => some (.vNull, rest)
    | '[' :: rest =>
      (match skipWs rest with
       | ']' :: r => some (.vArr [], r)
       | cs' => (pArrItems f cs').map (fun (xs, r) => (JsVal.vArr xs, r)))
    | '\x7b' :: rest =>
      (match skipWs rest with
       | '\x7d' :: r => some (.vObj [], r)
       | cs' => (pObjItems f cs' []).map (fun (o, r) => (JsVal.vObj o, r)))
    | cs' => (pNumber cs').map (fun (q, r) => (JsVal.vNum (.fin q), r))

/-- Parse the comma-separated elements of a (nonempty) JSON array. -/
def pArrItems : Nat → List Char → Option (List JsVal × List Char)
  | 0, _ => none
  | f + 1, cs =>
    match pVal f cs with
    | none => none
    | some (v, rest) =>
      match skipWs rest with
      | ',' :: rest' => (pArrItems f rest').map (fun (xs, r) => (v :: xs, r))
      | ']' :: rest' => some ([v], rest')
      | _ => none

/-- Parse the comma-separated members of a (nonempty) JSON object, with the
members accumulated so far. -/
def pObjItems : Nat → List Char → JsObj → Option (JsObj × List Char)
  | 0, _, _ => none
  | f + 1, cs, o =>
    match skipWs cs with
    | '"' :: rest =>
      (match pStringBody rest with
       | none => none
       | some (k, rest1) =>
         match skipWs rest1 with
         | ':' :: rest2 =>
           (match pVal f rest2 with
            | none => none
            | some (v, rest3) =>
              let o' := objSet o ⟨k⟩ v
              match skipWs rest3 with
              | ',' :: rest4 => pObjItems f rest4 o'
              | '\x7d' :: rest4 => some (o', rest4)
              | _ => none)
         | _ => none)
    | _ => none

end

/-- Model of `JSON.parse`: parse one value, allow trailing whitespace only. -/
def jsonParse (s : String) : Option JsVal :=
  match pVal (s.length + 1) s.data with
  | some (v, rest) => if skipWs rest = [] then some v else none
  | none => none

/-! ### Object operations and property access -/

/-- Look up a key of a stored object. -/
def objLookup (o : JsObj) (k : String) : Option JsVal :=
  (o.find? (fun p => p.1 == k)).map (fun p => p.2)

/-- A string that is a canonical array index (`"0"`, `"12"`, …). -/
def strAsIndex (k : String) : Option Nat :=
  let ds := k.data
  if ds ≠ [] ∧ ds.all isDigitCh ∧ (ds.head? = some '0' → ds = ['0']) then
    some (digitsToNat ds)
  else none

/-- Property read `v[k]` (JavaScript member access; `undefined` when absent).
On arrays and strings only `length` and numeric indices are populated, which
the handlers never use, but the model keeps them for faithfulness. -/
def getProp (v : JsVal) (k : String) : JsVal :=
  match v with
  | .vObj fs =>
    (match fs.find? (fun p => p.1 == k) with
     | some p => p.2
     | none => .vUndefined)
  | .vArr xs =>
    if k == "length" then .vNum (.fin (xs.length : ℚ))
    else
      (match strAsIndex k with
       | some n => (match xs[n]? with | some x => x | none => .vUndefined)
       | none => .vUndefined)
  | .vStr s => if k == "length" then .vNum (.fin (s.data.length : ℚ)) else .vUndefined
  | _ => .vUndefined

/-- The `k in v` operator: defined on objects and arrays, a thrown
`TypeError` (modelled as `Except.error`) on primitives. -/
def hasProp (v : JsVal) (k : String) : Except Unit Bool :=
  match v with
  | .vObj fs => .ok (fs.any (fun p => p.1 == k))
  | .vArr xs =>
    .ok (k == "length" ||
      (match strAsIndex k with
       | some n => decide (n < xs.length)
       | none => false))
  | _ => .error ()

/-- `item.id === id` for a stored item and the id string from the path. -/
def idMatch (it : JsObj) (i : String) : Bool :=
  match objLookup it "id" with
  | some (.vStr s) => s == i
  | _ => false

/-! ### Validation (`validateItemPayload`) and size canonicalization -/

/-- `String.prototype.toLowerCase` (ASCII lowering suffices for the size forms). -/
def jsToLower (s : String) : String := ⟨s.data.map Char.toLower⟩

/-- Whitespace for `String.prototype.trim` (the ASCII fragment). -/
def isTrimWs (c : Char) : Bool :=
  c = ' ' ∨ c = '\t' ∨ c = '\n' ∨ c = '\r' ∨ c = '\x0b' ∨ c = '\x0c'

/-- `String.prototype.trim`. -/
def jsTrim (s : String) : String :=
  ⟨((s.data.dropWhile isTrimWs).reverse.dropWhile isTrimWs).reverse⟩

/-- `leadsWith pre cs`: `pre` is an initial run of `cs`. -/
def leadsWith : List Char → List Char → Bool
  | [], _ => true
  | _ :: _, [] => false
  | p :: ps, c :: cs => p == c && leadsWith ps cs

/-- `String.prototype.replace` with a string pattern: replace the first
occurrence only. -/
def replFirst (pat rep : List Char) : List Char → List Char
  | [] => if leadsWith pat [] then rep else []
  | c :: cs =>
    if leadsWith pat (c :: cs) then rep ++ (c :: cs).drop pat.length
    else c :: replFirst pat rep cs

/-- The size-normalization expression of the source
(`size.toLowerCase().replace('small','s').replace('medium','m').replace('large','l')`). -/
def canonSize (s : String) : String :=
  ⟨replFirst "large".data ['l']
    (replFirst "medium".data ['m']
      (replFirst "small".data ['s'] (jsToLower s).data))⟩

/-- The accepted size strings. -/
def allowedSizes : List String := ["s", "m", "l", "small", "medium", "large"]

/-- Error message for an invalid name. -/
def nameErr : String := "name must be a non-empty string"

/-- Error message for an invalid price. -/
def priceErr : String := "price must be a non-negative number"

/-- Error message for an invalid size. -/
def sizeErr : String := "size must be one of s,m,l (or small,medium,large)"

/-- `validateItemPayload(payload, isPartial)`.  In partial mode a field is
checked only if present (`'field' in payload`, which throws on primitive
payloads — hence the `Except`). -/
def validateItemPayload (payload : JsVal) (isPart : Bool) : Except Unit (List String) := do
  let nameChecked ← if isPart then hasProp payload "name" else pure true
  let e1 :=
    if nameChecked then
      (match getProp payload "name" with
       | .vStr s => if jsTrim s = "" then [nameErr] else []
       | _ => [nameErr])
    else []
  let priceChecked ← if isPart then hasProp payload "price" else pure true
  let e2 :=
    if priceChecked then
      (match getProp payload "price" with
       | .vNum n => if !n.finite || n.ltZero then [priceErr] else []
       | _ => [priceErr])
    else []
  let sizeChecked ← if isPart then hasProp payload "size" else pure true
  let e3 :=
    if sizeChecked then
      (match getProp payload "size" with
       | .vStr s => if allowedSizes.contains (jsToLower s) then [] else [sizeErr]
       | _ => [sizeErr])
    else []
  pure (e1 ++ e2 ++ e3)

/-! ### The API handlers (`handleApi` for `/api/items` routes)

File reads/writes become explicit state passing: the `List JsObj` argument is
the collection `readItems()` yields, the `items` field of the output is the
collection passed to `writeItems`.  A promise rejection / thrown exception
reaching the handler's `catch` is the 500 response. -/

/-- HTTP method of a request. -/
inductive Method where
  | GET | POST | PUT | DELETE | OTHER

/-- The JSON response envelope. -/
structure Envelope where
  success : Bool
  data : Option JsVal
  error : Option String
  errors : Option (List String)

/-- Status, envelope, and the collection after the request. -/
structure ApiOut where
  status : Nat
  body : Envelope
  items : List JsObj

/-- `parseJsonBody`: empty body resolves to `null` (modelled `none`), a body
that is not well-formed JSON rejects (modelled `Except.error`). -/
def parseBody (raw : String) : Except Unit (Option JsVal) :=
  if raw = "" then .ok none
  else
    match jsonParse raw with
    | some v => .ok (some v)
    | none => .error ()

/-- The 500 response produced by the handler's `catch`. -/
def err500 (items : List JsObj) : ApiOut :=
  ⟨500, ⟨false, none, some "Internal server error", none⟩, items⟩

/-- The 404 "Item not found" response. -/
def notFoundOut (items : List JsObj) : ApiOut :=
  ⟨404, ⟨false, none, some "Item not found", none⟩, items⟩

/-- The 400 "Missing JSON body" response. -/
def missingBodyOut (items : List JsObj) : ApiOut :=
  ⟨400, ⟨false, none, some "Missing JSON body", none⟩, items⟩

/-- The freshly created item of a POST (`payload.size` already known to be
the string `sz`). -/
def mkNewItem (genId : String) (p : JsVal) (sz : String) : JsObj :=
  [("id", .vStr genId), ("name", getProp p "name"), ("price", getProp p "price"),
   ("size", .vStr (canonSize sz))]

/-- `POST /api/items`. -/
def postItems (raw : String) (items : List JsObj) (genId : String) : ApiOut :=
  match parseBody raw with
  | .error _ => err500 items
  | .ok none => missingBodyOut items
  | .ok (some p) =>
    if truthy p = false then missingBodyOut items
    else
      match validateItemPayload p false with
      | .error _ => err500 items
      | .ok errs =>
        if errs ≠ [] then ⟨422, ⟨false, none, none, some errs⟩, items⟩
        else
          match getProp p "size" with
          | .vStr sz =>
            let ni := mkNewItem genId p sz
            ⟨201, ⟨true, some (.vObj ni), none, none⟩, items ++ [ni]⟩
          | _ => err500 items

/-- `PUT /api/items/:id`. -/
def putItems (i : String) (raw : String) (items : List JsObj) : ApiOut :=
  match parseBody raw with
  | .error _ => err500 items
  | .ok none => missingBodyOut items
  | .ok (some p) =>
    if truthy p = false then missingBodyOut items
    else
      match validateItemPayload p true with
      | .error _ => err500 items
      | .ok errs =>
        if errs ≠ [] then ⟨422, ⟨false, none, none, some errs⟩, items⟩
        else
          match items.findIdx? (fun it => idMatch it i) with
          | none => notFoundOut items
          | some idx =>
            let item0 := (items[idx]?).getD []
            match hasProp p "name", hasProp p "price", hasProp p "size" with
            | .ok hn, .ok hp, .ok hs =>
              let it1 := if hn then objSet item0 "name" (getProp p "name") else item0
              let it2 := if hp then objSet it1 "price" (getProp p "price") else it1
              if hs then
                match getProp p "size" with
                | .vStr s =>
                  let it3 := objSet it2 "size" (.vStr (canonSize s))
                  ⟨200, ⟨true, some (.vObj it3), none, none⟩, items.set idx it3⟩
                | _ => err500 items
              else ⟨200, ⟨true, some (.vObj it2), none, none⟩, items.set idx it2⟩
            | _, _, _ => err500 items

/-- `DELETE /api/items/:id`. -/
def deleteItems (i : String) (items : List JsObj) : ApiOut :=
  match items.findIdx? (fun it => idMatch it i) with
  | none => notFoundOut items
  | some idx =>
    let removed := (items[idx]?).getD []
    ⟨200, ⟨true, some (.vObj removed), none, none⟩, items.eraseIdx idx⟩

/-- `GET /api/items`. -/
def getAllItems (items : List JsObj) : ApiOut :=
  ⟨200, ⟨true, some (.vArr (items.map .vObj)), none, none⟩, items⟩

/-- `GET /api/items/:id`. -/
def getOneItem (i : String) (items : List JsObj) : ApiOut :=
  match items.find? (fun it => idMatch it i) with
  | none => notFoundOut items
  | some it => ⟨200, ⟨true, some (.vObj it), none, none⟩, items⟩

/-- The `/api/items` dispatch of `handleApi` (method × optional id segment),
with the fall-through 405.  `raw` is the request body, `genId` the value
`randomUUID()` returns for this request. -/
def handleItems : Method → Option String → String → List JsObj → String → ApiOut
  | .GET, none, _, items, _ => getAllItems items
  | .GET, some i, _, items, _ => getOneItem i items
  | .POST, none, raw, items, genId => postItems raw items genId
  | .PUT, some i, raw, items, _ => putItems i raw items
  | .DELETE, some i, _, items, _ => deleteItems i items
  | _, _, _, items, _ =>
    ⟨405, ⟨false, none, some "Method not allowed", none⟩, items⟩

/-! ### Persistence (`readItems`) -/

/-- The backing file's state. -/
inductive FileState where
  | absent : FileState
  | present : String → FileState

/-- `readItems()`: `ENOENT` yields `[]`; otherwise `JSON.parse(txt || '[]')`,
whose failure propagates (`Except.error`). -/
def readItems : FileState → Except Unit JsVal
  | .absent => .ok (.vArr [])
  | .present txt =>
    match jsonParse (if txt = "" then "[]" else txt) with
    | some v => .ok v
    | none => .error ()

/-! ### Static file path resolution (`serveStaticHtml`)

Node's POSIX `path.normalize` and `path.join` are modelled on character
lists: split on `'/'`, process the segments with the usual `..`/`.` stack
(absolute paths drop leading `..`, relative paths keep them), rejoin, with
Node's empty-result and trailing-slash conventions. -/

/-- The `".."` segment. -/
def ddSeg : List Char := ['.', '.']

/-- The `"."` segment. -/
def dotSeg : List Char := ['.']

/-- Split a character list at a separator (`"a/b"` ↦ `["a","b"]`,
`""` ↦ `[""]`). -/
def splitSep (sep : Char) : List Char → List (List Char)
  | [] => [[]]
  | c :: cs =>
    let r := splitSep sep cs
    if c = sep then [] :: r
    else
      match r with
      | s :: ss => (c :: s) :: ss
      | [] => [[c]]

/-- Join segments with a separator. -/
def joinSep (sep : Char) : List (List Char) → List Char
  | [] => []
  | [s] => s
  | s :: ss => s ++ sep :: joinSep sep ss

/-- One step of path-segment normalization: skip empty and `"."` segments;
on `".."`, pop a previous real segment, or (relative paths only) keep a
leading `".."`; push anything else. -/
def stepSeg (abs : Bool) (acc : List (List Char)) (s : List Char) : List (List Char) :=
  if s = [] ∨ s = dotSeg then acc
  else if s = ddSeg then
    match acc with
    | [] => if abs then [] else [ddSeg]
    | t :: acc' => if t = ddSeg then ddSeg :: t :: acc' else acc'
  else s :: acc

/-- Normalize a segment list (result in original order). -/
def runSegs (abs : Bool) (segs : List (List Char)) : List (List Char) :=
  (segs.foldl (stepSeg abs) []).reverse

/-- Node's POSIX `path.normalize` on character lists. -/
def normalizeCL (cs : List Char) : List Char :=
  if cs = [] then dotSeg
  else
    let abs := cs.head? == some '/'
    let trail := cs.reverse.head? == some '/'
    let core := joinSep '/' (runSegs abs (splitSep '/' cs))
    if core = [] then
      (if abs then ['/'] else if trail then ['.', '/'] else dotSeg)
    else
      (if abs then '/' :: core else core) ++ (if trail then ['/'] else [])

/-- The regex `^(\.\.[/\\])+` replaced by the empty string: strip leading
`../` and `..\` runs. -/
def stripDots : List Char → List Char
  | c1 :: c2 :: c3 :: rest =>
    if c1 = '.' ∧ c2 = '.' ∧ (c3 = '/' ∨ c3 = '\\') then stripDots rest
    else c1 :: c2 :: c3 :: rest
  | cs => cs

/-- Node's POSIX `path.join` of two parts. -/
def joinCL (a b : List Char) : List Char :=
  if a = [] then (if b = [] then dotSeg else normalizeCL b)
  else if b = [] then normalizeCL a
  else normalizeCL (a ++ '/' :: b)

/-- `closesWith sfx cs`: `cs` ends with `sfx`. -/
def closesWith (sfx cs : List Char) : Bool := leadsWith sfx.reverse cs.reverse

/-- The `".html"` suffix. -/
def htmlExt : List Char := ['.', 'h', 't', 'm', 'l']

/-- The file path `serveStaticHtml` resolves for a request path, if the
request is eligible for static serving: map `/` to `/index.html`, check the
`.html` suffix, normalize, strip leading parent-directory sequences, and
join to the public root. -/
def serveStaticPath (pubDir pathname : String) : Option String :=
  let requested := if pathname = "/" then "/index.html" else pathname
  if closesWith htmlExt requested.data then
    some ⟨joinCL pubDir.data (stripDots (normalizeCL requested.data))⟩
  else none

/-! ### Shape predicates used by the statements -/

/-- The field names of a stored item, in construction order. -/
def itemKeys : List String := ["id", "name", "price", "size"]

/-- An item has exactly the fields `id`, `name`, `price`, `size`. -/
def wfItem (it : JsObj) : Prop := it.map Prod.fst = itemKeys

/-- A real path segment: not empty, not `"."`, not `".."`. -/
def goodSeg (s : List Char) : Prop := s ≠ [] ∧ s ≠ dotSeg ∧ s ≠ ddSeg

/-- The segments normalization keeps verbatim. -/
def keepB (s : List Char) : Bool := if s = [] ∨ s = dotSeg then false else true

/-- `cs` ends with the suffix `t`. -/
def endsCL (t cs : List Char) : Prop := ∃ a, cs = a ++ t

/-- Invariant of the normalization stack (`acc` is most-recent-first): real
segments on top of a run of leading `".."` segments, the latter only for
relative paths. -/
def stackOk (abs : Bool) (acc : List (List Char)) : Prop :=
  ∃ gs k, acc = gs ++ List.replicate k ddSeg ∧ (∀ s ∈ gs, goodSeg s) ∧
    (abs = true → k = 0)

/-- Shape of a normalized path's segment list: a leading run of `".."`
segments followed by segments that are not `".."`. -/
def okShape (cs : List Char) : Prop :=
  ∃ k gs, splitSep '/' cs = List.replicate k ddSeg ++ gs ∧ ∀ s ∈ gs, s ≠ ddSeg

/-! ### General list lemmas -/

theorem findIdx?_start_spec {α : Type} (p : α → Bool) :
    ∀ (l : List α) (s i : Nat), l.findIdx? p s = some i →
      s ≤ i ∧ ∃ x, l[i - s]? = some x ∧ p x = true := by
  intro l
  induction l with
  | nil => intro s i h; simp [List.findIdx?] at h
  | cons a l ih =>
    intro s i h
    rw [List.findIdx?_cons] at h
    by_cases hp : p a = true
    · rw [if_pos hp] at h
      cases h
      exact ⟨le_refl _, a, by simp, hp⟩
    · rw [if_neg hp] at h
      obtain ⟨hle, x, hx, hpx⟩ := ih (s + 1) i h
      refine ⟨by omega, x, ?_, hpx⟩
      have harith : i - s = (i - (s + 1)) + 1 := by omega
      rw [harith]
      simpa using hx

theorem findIdx?_spec {α : Type} {p : α → Bool} {l : List α} {i : Nat}
    (h : l.findIdx? p = some i) : ∃ x, l[i]? = some x ∧ p x = true := by
  have := findIdx?_start_spec p l 0 i h
  simpa using this.2

theorem set_of_getElem? {α : Type} :
    ∀ (l : List α) (i : Nat) (x : α), l[i]? = some x → l.set i x = l := by
  intro l
  induction l with
  | nil => intro i x h; cases h
  | cons a l ih =>
    intro i x h
    cases i with
    | zero => simp at h; simp [h]
    | succ n =>
      simp only [List.getElem?_cons_succ] at h
      simp [List.set, ih n x h]

theorem mem_set_elim {α : Type} :
    ∀ (l : List α) (i : Nat) (x y : α), y ∈ l.set i x → y = x ∨ y ∈ l := by
  intro l
  induction l with
  | nil => intro i x y h; simp at h
  | cons a l ih =>
    intro i x y h
    cases i with
    | zero =>
      rw [List.set_cons_zero] at h
      rcases List.mem_cons.1 h with h | h
      · exact Or.inl h
      · exact Or.inr (List.mem_cons_of_mem _ h)
    | succ n =>
      rw [List.set_cons_succ] at h
      rcases List.mem_cons.1 h with h | h
      · subst h; exact Or.inr (List.mem_cons_self _ _)
      · rcases ih n x y h with h' | h'
        · exact Or.inl h'
        · exact Or.inr (List.mem_cons_of_mem _ h')

theorem map_set_eq {α β : Type} (f : α → β) :
    ∀ (l : List α) (i : Nat) (x y : α), l[i]? = some y → f x = f y →
      (l.set i x).map f = l.map f := by
  intro l
  induction l with
  | nil => intro i x y h; cases h
  | cons a l ih =>
    intro i x y h hf
    cases i with
    | zero => simp at h; subst h; simp [List.set, hf]
    | succ n =>
      simp only [List.getElem?_cons_succ] at h
      simp [List.set, ih n x y h hf]

theorem lt_length_of_getElem? {α : Type} {l : List α} {i : Nat} {x : α}
    (h : l[i]? = some x) : i < l.length := by
  by_contra hn
  rw [List.getElem?_eq_none (Nat.le_of_not_lt hn)] at h
  cases h

/-! ### Object operation lemmas -/

theorem objSet_lookup_self (o : JsObj) (k : String) (v : JsVal) :
    objLookup (objSet o k v) k = some v := by
  unfold objSet
  by_cases h : o.any (fun p => p.1 == k) = true
  · rw [if_pos h]
    induction o with
    | nil => simp at h
    | cons a o ih =>
      by_cases ha : a.1 == k
      · simp [objLookup, List.find?, ha]
      · simp only [List.any_cons, ha, Bool.false_or] at h
        simpa [objLookup, List.find?, ha] using ih h
  · rw [if_neg h]
    induction o with
    | nil => simp [objLookup, List.find?]
    | cons a o ih =>
      simp only [List.any_cons, Bool.or_eq_true, not_or] at h
      have ha : (a.1 == k) = false := by
        cases hb : a.1 == k
        · rfl
        · exact absurd hb h.1
      simpa [objLookup, List.find?, ha] using ih (by simp [h.2])

theorem find?_objSet_map (k k' : String) (v : JsVal) (h : (k == k') = false) :
    ∀ o : JsObj,
      List.find? (fun p => p.1 == k') (o.map (fun p => if p.1 == k then (k, v) else p)) =
        List.find? (fun p => p.1 == k') o := by
  intro o
  induction o with
  | nil => rfl
  | cons a o ih =>
    simp only [List.map_cons]
    by_cases ha : (a.1 == k) = true
    · have ha' : a.1 = k := by simpa using ha
      have ha2 : (a.1 == k') = false := by rw [ha']; exact h
      rw [if_pos ha]
      rw [List.find?_cons_of_neg _ (by simp [h]), List.find?_cons_of_neg _ (by simp [ha2])]
      exact ih
    · rw [if_neg ha]
      by_cases hb : (a.1 == k') = true
      · rw [List.find?_cons_of_pos (p := fun q : String × JsVal => q.1 == k') _ hb,
          List.find?_cons_of_pos (p := fun q : String × JsVal => q.1 == k') _ hb]
      · rw [List.find?_cons_of_neg (p := fun q : String × JsVal => q.1 == k') _ hb,
          List.find?_cons_of_neg (p := fun q : String × JsVal => q.1 == k') _ hb]
        exact ih

theorem objSet_lookup_ne (o : JsObj) (k k' : String) (v : JsVal) (h : k' ≠ k) :
    objLookup (objSet o k v) k' = objLookup o k' := by
  have hkk : (k == k') = false := by
    simp only [beq_eq_false_iff_ne, ne_eq]
    exact fun hh => h hh.symm
  unfold objSet objLookup
  by_cases hany : o.any (fun p => p.1 == k) = true
  · rw [if_pos hany, find?_objSet_map k k' v hkk]
  · rw [if_neg hany, List.find?_append]
    have : List.find? (fun p => p.1 == k') [(k, v)] = none := by
      simp [List.find?, hkk]
    rw [this]
    simp

theorem objSet_keys (o : JsObj) (k : String) (v : JsVal)
    (h : o.any (fun p => p.1 == k) = true) :
    (objSet o k v).map Prod.fst = o.map Prod.fst := by
  unfold objSet
  rw [if_pos h, List.map_map]
  apply List.map_congr_left
  intro p _
  by_cases hp : (p.1 == k) = true
  · rw [Function.comp_apply, if_pos hp]
    exact ((by simpa using hp : p.1 = k)).symm
  · rw [Function.comp_apply, if_neg hp]

/-! ## C7: `readItems` behaviour -/

/-- C7 counterexample: the empty file content is not valid JSON
(`JSON.parse('')` throws), yet `readItems` returns the empty collection
instead of propagating a read failure, because of the `txt || '[]'`
fallback in the source. -/
theorem readItems_empty_content_cex :
    jsonParse "" = none ∧ readItems (.present "") = .ok (.vArr []) :=
  ⟨rfl, rfl⟩

/-- C7 amended: an absent file yields the empty collection; empty file
content also yields the empty collection (despite not being valid JSON);
any other content that is not valid JSON propagates a read failure; valid
content yields the parsed value. -/
theorem readItems_spec :
    readItems .absent = .ok (.vArr []) ∧
    readItems (.present "") = .ok (.vArr []) ∧
    (∀ txt, txt ≠ "" → jsonParse txt = none → readItems (.present txt) = .error ()) ∧
    (∀ txt v, jsonParse txt = some v → readItems (.present txt) = .ok v) := by
  refine ⟨rfl, rfl, ?_, ?_⟩
  · intro txt hne hparse
    show (match jsonParse (if txt = "" then "[]" else txt) with
          | some v => Except.ok v
          | none => Except.error ()) = (Except.error () : Except Unit JsVal)
    rw [if_neg hne, hparse]
  · intro txt v hparse
    have hne : txt ≠ "" := by
      intro he
      subst he
      rw [show jsonParse "" = none from rfl] at hparse
      cases hparse
    show (match jsonParse (if txt = "" then "[]" else txt) with
          | some v => Except.ok v
          | none => Except.error ()) = (Except.ok v : Except Unit JsVal)
    rw [if_neg hne, hparse]

/-- C7 witness: a concrete invalid content propagates the failure, a
concrete valid content parses. -/
theorem readItems_spec_witness :
    readItems (.present "zz") = .error () ∧
    readItems (.present "[1]") = .ok (.vArr [.vNum (.fin 1)]) :=
  ⟨readItems_spec.2.2.1 "zz" (by decide) rfl,
   readItems_spec.2.2.2 "[1]" _ rfl⟩

/-! ## C5: size canonicalization -/

/-- C5: for every accepted size string, the stored value is the canonical
short form: any casing of `small`/`s` is stored as `"s"`, of `medium`/`m`
as `"m"`, of `large`/`l` as `"l"` (this is the expression both POST and PUT
store). -/
theorem size_canonicalization (s : String) :
    ((jsToLower s = "small" ∨ jsToLower s = "s") → canonSize s = "s") ∧
    ((jsToLower s = "medium" ∨ jsToLower s = "m") → canonSize s = "m") ∧
    ((jsToLower s = "large" ∨ jsToLower s = "l") → canonSize s = "l") := by
  refine ⟨?_, ?_, ?_⟩ <;> rintro (h | h) <;> (unfold canonSize; rw [h]) <;> rfl

/-- C5 witness: concrete casings of each accepted form. -/
theorem size_canonicalization_witness :
    canonSize "SMALL" = "s" ∧ canonSize "Medium" = "m" ∧ canonSize "LaRgE" = "l" :=
  ⟨(size_canonicalization "SMALL").1 (Or.inl rfl),
   (size_canonicalization "Medium").2.1 (Or.inl rfl),
   (size_canonicalization "LaRgE").2.2 (Or.inl rfl)⟩

/-! ## C1: missing/malformed body statuses -/

/-- C1 counterexample: a POST (or PUT) body that is not well-formed JSON
produces status 500, not 400 — the `JSON.parse` rejection propagates to the
handler's generic `catch`. -/
theorem malformed_body_cex :
    (handleItems .POST none "\x7b" [] "id1").status = 500 ∧
    (handleItems .POST none "\x7b" [] "id1").status ≠ 400 ∧
    (handleItems .PUT (some "a") "\x7b" [] "id1").status = 500 ∧
    (handleItems .PUT (some "a") "\x7b" [] "id1").status ≠ 400 :=
  ⟨rfl, by decide, rfl, by decide⟩

/-- C1 amended: a missing (empty) body yields the 400 `success:false`
envelope, but a body that is present and not well-formed JSON yields 500. -/
theorem body_error_statuses (items : List JsObj) (genId i raw : String) :
    (raw = "" →
      handleItems .POST none raw items genId = missingBodyOut items ∧
      handleItems .PUT (some i) raw items genId = missingBodyOut items) ∧
    (jsonParse raw = none → raw ≠ "" →
      handleItems .POST none raw items genId = err500 items ∧
      handleItems .PUT (some i) raw items genId = err500 items) := by
  constructor
  · intro h
    subst h
    exact ⟨rfl, rfl⟩
  · intro hp hne
    have hb : parseBody raw = .error () := by
      unfold parseBody
      rw [if_neg hne, hp]
    constructor
    · show postItems raw items genId = err500 items
      unfold postItems
      rw [hb]
    · show putItems i raw items = err500 items
      unfold putItems
      rw [hb]

/-- C1 witness: concrete empty and malformed bodies. -/
theorem body_error_statuses_witness :
    handleItems .POST none "" [] "g" = missingBodyOut [] ∧
    handleItems .PUT (some "a") "\x5b" [] "g" = err500 [] :=
  ⟨((body_error_statuses [] "g" "a" "").1 rfl).1,
   ((body_error_statuses [] "g" "a" "\x5b").2 rfl (by decide)).2⟩

/-! ## C2: PUT on a non-existent id -/

/-- C2 counterexample: a PUT to a non-existent id does **not** always
return 404 — an invalid payload returns 422 and a missing body returns 400,
because body parsing and validation run before the existence check. -/
theorem put_missing_id_cex :
    (handleItems .PUT (some "nope") "\x7b\"price\":-1\x7d" [] "g").status = 422 ∧
    (handleItems .PUT (some "nope") "\x7b\"price\":-1\x7d" [] "g").status ≠ 404 ∧
    (handleItems .PUT (some "nope") "" [] "g").status = 400 :=
  ⟨rfl, by decide, rfl⟩

/-- C2 amended: a PUT whose body is present, well-formed, truthy and passes
partial validation returns the 404 not-found response when no stored item
has the requested id. -/
theorem put_missing_id_404 (items : List JsObj) (i raw genId : String) (p : JsVal)
    (hraw : parseBody raw = .ok (some p)) (ht : truthy p = true)
    (hv : validateItemPayload p true = .ok [])
    (hnone : ∀ it ∈ items, idMatch it i = false) :
    handleItems .PUT (some i) raw items genId = notFoundOut items := by
  show putItems i raw items = notFoundOut items
  unfold putItems
  simp only [hraw, ht, hv, List.findIdx?_eq_none_iff.2 hnone]
  simp

/-- C2 witness: a valid partial payload against a collection without the
requested id. -/
theorem put_missing_id_404_witness :
    handleItems .PUT (some "b") "\x7b\"price\":5\x7d" [[("id", .vStr "a")]] "g" =
      notFoundOut [[("id", .vStr "a")]] :=
  put_missing_id_404 _ _ _ _ (.vObj [("price", .vNum (.fin 5))]) rfl rfl rfl (by decide)

/-! ## C9: PUT with an empty JSON object -/

/-- C9: a PUT whose body parses to the empty JSON object on an existing
item succeeds with 200, produces no validation errors, and returns the item
— and the stored collection — completely unchanged. -/
theorem put_empty_object_ok (items : List JsObj) (i raw genId : String) (idx : Nat)
    (hraw : parseBody raw = .ok (some (.vObj [])))
    (hidx : items.findIdx? (fun it => idMatch it i) = some idx) :
    validateItemPayload (.vObj []) true = .ok [] ∧
    handleItems .PUT (some i) raw items genId =
      ⟨200, ⟨true, some (.vObj ((items[idx]?).getD [])), none, none⟩, items⟩ := by
  obtain ⟨x, hx, -⟩ := findIdx?_spec hidx
  have hgetD : (items[idx]?).getD [] = x := by rw [hx]; rfl
  refine ⟨rfl, ?_⟩
  show putItems i raw items = _
  unfold putItems
  simp only [hraw, show truthy (JsVal.vObj []) = true from rfl,
    show validateItemPayload (JsVal.vObj []) true = Except.ok [] from rfl, hidx,
    show hasProp (JsVal.vObj []) "name" = Except.ok false from rfl,
    show hasProp (JsVal.vObj []) "price" = Except.ok false from rfl,
    show hasProp (JsVal.vObj []) "size" = Except.ok false from rfl,
    hgetD]
  simp [set_of_getElem? items idx x hx]

/-- C9 witness: PUT `\x7b\x7d` on a one-item collection. -/
theorem put_empty_object_ok_witness :
    handleItems .PUT (some "a") "\x7b\x7d"
        [[("id", .vStr "a"), ("name", .vStr "x"),
          ("price", .vNum (.fin 1)), ("size", .vStr "s")]] "g" =
      ⟨200,
       ⟨true,
        some (.vObj [("id", .vStr "a"), ("name", .vStr "x"),
          ("price", .vNum (.fin 1)), ("size", .vStr "s")]), none, none⟩,
       [[("id", .vStr "a"), ("name", .vStr "x"),
         ("price", .vNum (.fin 1)), ("size", .vStr "s")]]⟩ :=
  (put_empty_object_ok
    [[("id", .vStr "a"), ("name", .vStr "x"),
      ("price", .vNum (.fin 1)), ("size", .vStr "s")]]
    "a" "\x7b\x7d" "g" 0 rfl rfl).2

/-! ## C4: PUT with only a price -/

/-- C4: a PUT whose body is exactly `\x7b"price": q\x7d` with `0 ≤ q` on an
existing item returns 200, changes only the price, leaves the item's name,
size and id unchanged, and leaves every other item (and the collection's
length) unchanged. -/
theorem put_price_only (items : List JsObj) (i raw genId : String) (q : ℚ)
    (idx : Nat) (item0 : JsObj)
    (hraw : parseBody raw = .ok (some (.vObj [("price", .vNum (.fin q))])))
    (hq : 0 ≤ q)
    (hidx : items.findIdx? (fun it => idMatch it i) = some idx)
    (hit : items[idx]? = some item0) :
    handleItems .PUT (some i) raw items genId =
      ⟨200, ⟨true, some (.vObj (objSet item0 "price" (.vNum (.fin q)))), none, none⟩,
        items.set idx (objSet item0 "price" (.vNum (.fin q)))⟩ ∧
    objLookup (objSet item0 "price" (.vNum (.fin q))) "price" = some (.vNum (.fin q)) ∧
    objLookup (objSet item0 "price" (.vNum (.fin q))) "name" = objLookup item0 "name" ∧
    objLookup (objSet item0 "price" (.vNum (.fin q))) "size" = objLookup item0 "size" ∧
    objLookup (objSet item0 "price" (.vNum (.fin q))) "id" = objLookup item0 "id" ∧
    (∀ j, j ≠ idx → (items.set idx (objSet item0 "price" (.vNum (.fin q))))[j]? = items[j]?) ∧
    (items.set idx (objSet item0 "price" (.vNum (.fin q)))).length = items.length := by
  have hq' : decide (q < 0) = false := decide_eq_false (not_lt.2 hq)
  have hgetD : (items[idx]?).getD [] = item0 := by rw [hit]; rfl
  have hv : validateItemPayload (.vObj [("price", .vNum (.fin q))]) true = .ok [] := by
    unfold validateItemPayload
    simp [hasProp, getProp, JsNum.finite, JsNum.ltZero, hq']
    rfl
  refine ⟨?_, objSet_lookup_self _ _ _,
    objSet_lookup_ne _ _ _ _ (by decide), objSet_lookup_ne _ _ _ _ (by decide),
    objSet_lookup_ne _ _ _ _ (by decide),
    fun j hj => List.getElem?_set_ne (fun he => hj he.symm),
    List.length_set _ _ _⟩
  show putItems i raw items = _
  unfold putItems
  simp only [hraw,
    show truthy (JsVal.vObj [("price", JsVal.vNum (JsNum.fin q))]) = true from rfl,
    hv, hidx,
    show hasProp (JsVal.vObj [("price", JsVal.vNum (JsNum.fin q))]) "name" =
      Except.ok false from rfl,
    show hasProp (JsVal.vObj [("price", JsVal.vNum (JsNum.fin q))]) "price" =
      Except.ok true from rfl,
    show hasProp (JsVal.vObj [("price", JsVal.vNum (JsNum.fin q))]) "size" =
      Except.ok false from rfl,
    show getProp (JsVal.vObj [("price", JsVal.vNum (JsNum.fin q))]) "price" =
      JsVal.vNum (JsNum.fin q) from rfl,
    hgetD]
  simp

/-- C4 witness: PUT `\x7b"price":5\x7d` on the first of two items. -/
theorem put_price_only_witness :
    handleItems .PUT (some "a") "\x7b\"price\":5\x7d"
        [[("id", .vStr "a"), ("name", .vStr "x"),
          ("price", .vNum (.fin 1)), ("size", .vStr "s")],
         [("id", .vStr "b"), ("name", .vStr "y"),
          ("price", .vNum (.fin 2)), ("size", .vStr "m")]] "g" =
      ⟨200,
       ⟨true,
        some (.vObj [("id", .vStr "a"), ("name", .vStr "x"),
          ("price", .vNum (.fin 5)), ("size", .vStr "s")]), none, none⟩,
       [[("id", .vStr "a"), ("name", .vStr "x"),
         ("price", .vNum (.fin 5)), ("size", .vStr "s")],
        [("id", .vStr "b"), ("name", .vStr "y"),
         ("price", .vNum (.fin 2)), ("size", .vStr "m")]]⟩ :=
  (put_price_only
    [[("id", .vStr "a"), ("name", .vStr "x"),
      ("price", .vNum (.fin 1)), ("size", .vStr "s")],
     [("id", .vStr "b"), ("name", .vStr "y"),
      ("price", .vNum (.fin 2)), ("size", .vStr "m")]]
    "a" "\x7b\"price\":5\x7d" "g" 5 0
    [("id", .vStr "a"), ("name", .vStr "x"),
     ("price", .vNum (.fin 1)), ("size", .vStr "s")]
    rfl (by decide) rfl rfl).1

/-! ## C3: POST with a valid payload -/

/-- A payload passing full validation has a string `size`. -/
theorem validate_full_ok_size {p : JsVal} (h : validateItemPayload p false = .ok []) :
    ∃ sz, getProp p "size" = .vStr sz := by
  have h2 : ((match getProp p "name" with
        | .vStr s => if jsTrim s = "" then [nameErr] else []
        | _ => [nameErr]) ++
       (match getProp p "price" with
        | .vNum n => if !n.finite || n.ltZero then [priceErr] else []
        | _ => [priceErr]) ++
       (match getProp p "size" with
        | .vStr s => if allowedSizes.contains (jsToLower s) then [] else [sizeErr]
        | _ => [sizeErr])) = ([] : List String) := by
    injection h
  have h3 := (List.append_eq_nil.1 h2).2
  rcases hgp : getProp p "size" with _ | _ | b | n | s | xs | fs <;> rw [hgp] at h3 <;>
    first
      | exact ⟨_, rfl⟩
      | simp at h3

/-- C3: a POST whose body parses to a truthy payload passing full
validation answers 201 with a freshly built item whose id is the generated
id; when the generated id differs from every stored id (the guarantee
`randomUUID` provides), the new id collides with no existing item and a
subsequent GET of that id returns 200 with the same item. -/
theorem post_valid_creates (items : List JsObj) (raw genId r2 g2 : String) (p : JsVal)
    (hraw : parseBody raw = .ok (some p)) (ht : truthy p = true)
    (hv : validateItemPayload p false = .ok [])
    (hfresh : ∀ it ∈ items, idMatch it genId = false) :
    ∃ sz, getProp p "size" = .vStr sz ∧
      handleItems .POST none raw items genId =
        ⟨201, ⟨true, some (.vObj (mkNewItem genId p sz)), none, none⟩,
          items ++ [mkNewItem genId p sz]⟩ ∧
      objLookup (mkNewItem genId p sz) "id" = some (.vStr genId) ∧
      (∀ it ∈ items, objLookup it "id" ≠ some (.vStr genId)) ∧
      handleItems .GET (some genId) r2 (items ++ [mkNewItem genId p sz]) g2 =
        ⟨200, ⟨true, some (.vObj (mkNewItem genId p sz)), none, none⟩,
          items ++ [mkNewItem genId p sz]⟩ := by
  obtain ⟨sz, hsz⟩ := validate_full_ok_size hv
  have hni : idMatch (mkNewItem genId p sz) genId = true := by
    simp [idMatch, mkNewItem, objLookup, List.find?]
  refine ⟨sz, hsz, ?_, rfl, ?_, ?_⟩
  · show postItems raw items genId = _
    unfold postItems
    simp only [hraw, ht, hv, hsz]
    simp [mkNewItem]
  · intro it hmem heq
    have hf := hfresh it hmem
    rw [idMatch, objLookup] at hf
    rw [objLookup] at heq
    rw [heq] at hf
    simp at hf
  · show getOneItem genId (items ++ [mkNewItem genId p sz]) = _
    unfold getOneItem
    rw [List.find?_append,
      List.find?_eq_none.2 (fun x hx => by simp [hfresh x hx]),
      List.find?_cons_of_pos (p := fun it : JsObj => idMatch it genId) _ hni]
    rfl

/-- C3 witness: a fresh POST on a one-item collection, then GET. -/
theorem post_valid_creates_witness :
    ∃ sz, getProp (.vObj [("name", .vStr "Tee"), ("price", .vNum (.fin 4)),
        ("size", .vStr "Small")]) "size" = .vStr sz ∧
      handleItems .POST none "\x7b\"name\":\"Tee\",\"price\":4,\"size\":\"Small\"\x7d"
          [[("id", .vStr "u0")]] "u1" =
        ⟨201,
         ⟨true, some (.vObj (mkNewItem "u1"
            (.vObj [("name", .vStr "Tee"), ("price", .vNum (.fin 4)),
              ("size", .vStr "Small")]) sz)), none, none⟩,
         [[("id", .vStr "u0")]] ++ [mkNewItem "u1"
            (.vObj [("name", .vStr "Tee"), ("price", .vNum (.fin 4)),
              ("size", .vStr "Small")]) sz]⟩ ∧
      objLookup (mkNewItem "u1"
          (.vObj [("name", .vStr "Tee"), ("price", .vNum (.fin 4)),
            ("size", .vStr "Small")]) sz) "id" = some (.vStr "u1") ∧
      (∀ it ∈ [[("id", .vStr "u0")]],
        objLookup it "id" ≠ some (.vStr "u1")) ∧
      handleItems .GET (some "u1") ""
          ([[("id", .vStr "u0")]] ++ [mkNewItem "u1"
            (.vObj [("name", .vStr "Tee"), ("price", .vNum (.fin 4)),
              ("size", .vStr "Small")]) sz]) "g2" =
        ⟨200,
         ⟨true, some (.vObj (mkNewItem "u1"
            (.vObj [("name", .vStr "Tee"), ("price", .vNum (.fin 4)),
              ("size", .vStr "Small")]) sz)), none, none⟩,
         [[("id", .vStr "u0")]] ++ [mkNewItem "u1"
            (.vObj [("name", .vStr "Tee"), ("price", .vNum (.fin 4)),
              ("size", .vStr "Small")]) sz]⟩ :=
  post_valid_creates [[("id", .vStr "u0")]]
    "\x7b\"name\":\"Tee\",\"price\":4,\"size\":\"Small\"\x7d" "u1" "" "g2"
    (.vObj [("name", .vStr "Tee"), ("price", .vNum (.fin 4)), ("size", .vStr "Small")])
    rfl rfl rfl (by decide)

/-! ## C8: DELETE of an existing item -/

/-- C8: a DELETE of an existing id (unique in the collection, as server
generation guarantees) answers 200 carrying the removed item, after which
no stored item has that id and a GET of that id answers 404. -/
theorem delete_existing (items : List JsObj) (i r2 g g2 : String) (idx : Nat)
    (item0 : JsObj)
    (hidx : items.findIdx? (fun it => idMatch it i) = some idx)
    (hit : items[idx]? = some item0)
    (huniq : ∀ j it2, items[j]? = some it2 → j ≠ idx → idMatch it2 i = false) :
    handleItems .DELETE (some i) r2 items g =
      ⟨200, ⟨true, some (.vObj item0), none, none⟩, items.eraseIdx idx⟩ ∧
    (∀ it2 ∈ items.eraseIdx idx, idMatch it2 i = false) ∧
    handleItems .GET (some i) r2 (items.eraseIdx idx) g2 =
      notFoundOut (items.eraseIdx idx) := by
  have hgone : ∀ it2 ∈ items.eraseIdx idx, idMatch it2 i = false := by
    intro x hx
    obtain ⟨j, hj, hget⟩ := List.mem_eraseIdx_iff_getElem?.1 hx
    exact huniq j x hget hj
  refine ⟨?_, hgone, ?_⟩
  · show deleteItems i items = _
    unfold deleteItems
    have hgetD : (items[idx]?).getD [] = item0 := by rw [hit]; rfl
    simp only [hidx, hgetD]
  · show getOneItem i (items.eraseIdx idx) = _
    unfold getOneItem
    rw [List.find?_eq_none.2 (fun x hx => by simp [hgone x hx])]

/-- C8 witness: delete the first of two items, then GET it. -/
theorem delete_existing_witness :
    handleItems .DELETE (some "a") "" [[("id", .vStr "a")], [("id", .vStr "b")]] "g" =
      ⟨200, ⟨true, some (.vObj [("id", .vStr "a")]), none, none⟩, [[("id", .vStr "b")]]⟩ ∧
    (∀ it2 ∈ [[("id", .vStr "b")]], idMatch it2 "a" = false) ∧
    handleItems .GET (some "a") "" [[("id", .vStr "b")]] "g2" =
      notFoundOut [[("id", .vStr "b")]] :=
  delete_existing [[("id", .vStr "a")], [("id", .vStr "b")]] "a" "" "g" "g2" 0
    [("id", .vStr "a")] rfl rfl
    (by
      intro j it2 h hj
      match j, hj, h with
      | 0, hj, _ => exact absurd rfl hj
      | 1, _, h => injection h with h'; rw [← h']; rfl
      | n + 2, _, h => simp at h)

/-! ## C10: item shape invariant -/

theorem mem_of_get? {α : Type} :
    ∀ (l : List α) (i : Nat) (x : α), l[i]? = some x → x ∈ l := by
  intro l
  induction l with
  | nil => intro i x h; cases h
  | cons a l ih =>
    intro i x h
    cases i with
    | zero =>
      simp at h
      subst h
      exact List.mem_cons_self _ _
    | succ n =>
      simp only [List.getElem?_cons_succ] at h
      exact List.mem_cons_of_mem _ (ih n x h)

theorem any_key_of_keys (o : JsObj) (k : String) (h : k ∈ o.map Prod.fst) :
    o.any (fun p => p.1 == k) = true := by
  rw [List.any_eq_true]
  obtain ⟨q, hq, he⟩ := List.mem_map.1 h
  exact ⟨q, hq, by simp [he]⟩

theorem objSet_wf (it : JsObj) (k : String) (v : JsVal) (hk : k ∈ itemKeys)
    (h : wfItem it) : wfItem (objSet it k v) := by
  unfold wfItem at *
  rw [objSet_keys it k v (any_key_of_keys it k (by rw [h]; exact hk)), h]

theorem condSet_wf (it : JsObj) (b : Bool) (k : String) (v : JsVal)
    (hk : k ∈ itemKeys) (h : wfItem it) :
    wfItem (if b = true then objSet it k v else it) := by
  cases b
  · simpa using h
  · simpa using objSet_wf it k v hk h

theorem condSet_lookup (it : JsObj) (b : Bool) (k k' : String) (v : JsVal)
    (h : k' ≠ k) :
    objLookup (if b = true then objSet it k v else it) k' = objLookup it k' := by
  cases b
  · rfl
  · rw [if_pos rfl]
    exact objSet_lookup_ne it k k' v h

theorem getOneItem_items (i : String) (items : List JsObj) :
    (getOneItem i items).items = items := by
  unfold getOneItem
  cases hf : items.find? (fun it => idMatch it i) <;> rfl

theorem postItems_wf (raw : String) (items : List JsObj) (genId : String)
    (hwf : ∀ it ∈ items, wfItem it) :
    ∀ it ∈ (postItems raw items genId).items, wfItem it := by
  unfold postItems
  split
  · exact hwf
  · exact hwf
  · split
    · exact hwf
    · split
      · exact hwf
      · split
        · exact hwf
        · split
          · intro it hm
            rcases List.mem_append.1 hm with hm2 | hm2
            · exact hwf it hm2
            · rw [List.mem_singleton.1 hm2]
              rfl
          · exact hwf

theorem putItems_wf (i raw : String) (items : List JsObj)
    (hwf : ∀ it ∈ items, wfItem it) :
    (∀ it ∈ (putItems i raw items).items, wfItem it) ∧
    (putItems i raw items).items.map (fun it => objLookup it "id") =
      items.map (fun it => objLookup it "id") := by
  unfold putItems
  split
  · exact ⟨hwf, rfl⟩
  · exact ⟨hwf, rfl⟩
  · rename_i p hpeq
    split
    · exact ⟨hwf, rfl⟩
    · split
      · exact ⟨hwf, rfl⟩
      · split
        · exact ⟨hwf, rfl⟩
        · split
          · exact ⟨hwf, rfl⟩
          · rename_i idx heq
            obtain ⟨x, hx, -⟩ := findIdx?_spec heq
            have hgetD : (items[idx]?).getD [] = x := by rw [hx]; rfl
            have hwfx : wfItem x := hwf x (mem_of_get? items idx x hx)
            simp only [hgetD]
            split
            · rename_i hn hp hs hma hmb hmc
              have hwf1 := condSet_wf x hn "name" (getProp p "name") (by decide) hwfx
              have hid1 := condSet_lookup x hn "name" "id" (getProp p "name") (by decide)
              generalize hg1 : (if hn = true then objSet x "name" (getProp p "name") else x) = t1
              rw [hg1] at hwf1 hid1
              have hwf2 := condSet_wf t1 hp "price" (getProp p "price") (by decide) hwf1
              have hid2 := condSet_lookup t1 hp "price" "id" (getProp p "price") (by decide)
              generalize hg2 : (if hp = true then objSet t1 "price" (getProp p "price") else t1) = t2
              rw [hg2] at hwf2 hid2
              split
              · split
                · refine ⟨?_, ?_⟩
                  · rename_i s hgp
                    intro it hm
                    rcases mem_set_elim _ _ _ _ hm with rfl | hm2
                    · exact objSet_wf t2 "size" (.vStr (canonSize s)) (by decide) hwf2
                    · exact hwf it hm2
                  · rename_i s hgp
                    apply map_set_eq _ items idx _ x hx
                    show objLookup (objSet t2 "size" (.vStr (canonSize s))) "id" =
                      objLookup x "id"
                    rw [objSet_lookup_ne _ _ _ _ (by decide), hid2, hid1]
                · exact ⟨hwf, rfl⟩
              · refine ⟨?_, ?_⟩
                · intro it hm
                  rcases mem_set_elim _ _ _ _ hm with rfl | hm2
                  · exact hwf2
                  · exact hwf it hm2
                · apply map_set_eq _ items idx _ x hx
                  rw [hid2, hid1]
            · exact ⟨hwf, rfl⟩

/-- C10: every item a POST stores has exactly the fields `id`, `name`,
`price`, `size` (extra payload keys are discarded), and no handler — in
particular no PUT — ever adds a field or changes an item's id: the
four-field shape is preserved by every request, and a PUT leaves the list
of stored ids pointwise unchanged. -/
theorem items_shape_invariant (m : Method) (oid : Option String) (raw : String)
    (items : List JsObj) (genId : String)
    (hwf : ∀ it ∈ items, wfItem it) :
    (∀ it ∈ (handleItems m oid raw items genId).items, wfItem it) ∧
    (m = .PUT →
      (handleItems m oid raw items genId).items.map (fun it => objLookup it "id") =
        items.map (fun it => objLookup it "id")) := by
  cases m with
  | GET =>
    cases oid with
    | none => exact ⟨hwf, fun h => nomatch h⟩
    | some i =>
      refine ⟨?_, fun h => nomatch h⟩
      show ∀ it ∈ (getOneItem i items).items, wfItem it
      rw [getOneItem_items]
      exact hwf
  | POST =>
    cases oid with
    | none => exact ⟨postItems_wf raw items genId hwf, fun h => nomatch h⟩
    | some i => exact ⟨hwf, fun h => nomatch h⟩
  | PUT =>
    cases oid with
    | none => exact ⟨hwf, fun _ => rfl⟩
    | some i =>
      exact ⟨(putItems_wf i raw items hwf).1, fun _ => (putItems_wf i raw items hwf).2⟩
  | DELETE =>
    cases oid with
    | none => exact ⟨hwf, fun h => nomatch h⟩
    | some i =>
      refine ⟨?_, fun h => nomatch h⟩
      show ∀ it ∈ (deleteItems i items).items, wfItem it
      unfold deleteItems
      rcases hidx : items.findIdx? (fun it => idMatch it i) with _ | idx
      · exact hwf
      · intro it hm
        exact hwf it (List.eraseIdx_subset items idx hm)
  | OTHER => exact ⟨hwf, fun h => nomatch h⟩

/-- C10 witness: a PUT changing only the price on a well-formed one-item
collection. -/
theorem items_shape_invariant_witness :
    (∀ it ∈ (handleItems .PUT (some "a") "\x7b\"price\":2\x7d"
        [[("id", .vStr "a"), ("name", .vStr "x"), ("price", .vNum (.fin 1)),
          ("size", .vStr "s")]] "g").items, wfItem it) ∧
    (Method.PUT = Method.PUT →
      (handleItems .PUT (some "a") "\x7b\"price\":2\x7d"
        [[("id", .vStr "a"), ("name", .vStr "x"), ("price", .vNum (.fin 1)),
          ("size", .vStr "s")]] "g").items.map (fun it => objLookup it "id") =
      [[("id", .vStr "a"), ("name", .vStr "x"), ("price", .vNum (.fin 1)),
        ("size", .vStr "s")]].map (fun it => objLookup it "id")) :=
  items_shape_invariant .PUT (some "a") "\x7b\"price\":2\x7d"
    [[("id", .vStr "a"), ("name", .vStr "x"), ("price", .vNum (.fin 1)),
      ("size", .vStr "s")]] "g"
    (by
      intro it hm
      rw [List.mem_singleton.1 hm]
      rfl)

/-! ## C6: static file resolution stays inside the public directory

Supporting lemmas about `splitSep`, `joinSep`, `runSegs`, `normalizeCL`,
`stripDots` and `joinCL`. -/

theorem split_ne_nil (sep : Char) : ∀ cs : List Char, splitSep sep cs ≠ [] := by
  intro cs
  induction cs with
  | nil => simp [splitSep]
  | cons c cs ih =>
    unfold splitSep
    by_cases hc : c = sep
    · simp [hc]
    · rw [if_neg hc]
      rcases hr : splitSep sep cs with _ | ⟨s, ss⟩
      · exact absurd hr ih
      · simp

theorem split_cons_sep (sep : Char) (cs : List Char) :
    splitSep sep (sep :: cs) = [] :: splitSep sep cs := by
  cases cs with
  | nil => simp [splitSep]
  | cons c cs' => simp [splitSep]

theorem split_cons_ne (sep c : Char) (cs : List Char) (h : ¬ c = sep)
    {s : List Char} {ss : List (List Char)} (hr : splitSep sep cs = s :: ss) :
    splitSep sep (c :: cs) = (c :: s) :: ss := by
  unfold splitSep
  rw [if_neg h, hr]

theorem join_split (sep : Char) : ∀ cs : List Char, joinSep sep (splitSep sep cs) = cs := by
  intro cs
  induction cs with
  | nil => rfl
  | cons c cs ih =>
    by_cases hc : c = sep
    · subst hc
      rw [split_cons_sep]
      rcases hr : splitSep c cs with _ | ⟨s, ss⟩
      · exact absurd hr (split_ne_nil c cs)
      · rw [hr] at ih
        show joinSep c ([] :: s :: ss) = c :: cs
        unfold joinSep
        rw [ih]
        simp
    · rcases hr : splitSep sep cs with _ | ⟨s, ss⟩
      · exact absurd hr (split_ne_nil sep cs)
      · rw [split_cons_ne sep c cs hc hr]
        rw [hr] at ih
        rcases ss with _ | ⟨s2, ss2⟩
        · show c :: s = c :: cs
          rw [show s = joinSep sep [s] from rfl, ih]
        · show (c :: s) ++ sep :: joinSep sep (s2 :: ss2) = c :: cs
          rw [List.cons_append,
            show s ++ sep :: joinSep sep (s2 :: ss2) = joinSep sep (s :: s2 :: ss2) from rfl,
            ih]

theorem split_sepFree (sep : Char) :
    ∀ s : List Char, sep ∉ s → splitSep sep s = [s] := by
  intro s
  induction s with
  | nil => intro _; rfl
  | cons c cs ih =>
    intro h
    have hc : ¬ c = sep := fun he => h (by rw [he]; exact List.mem_cons_self _ _)
    have hcs : sep ∉ cs := fun hm => h (List.mem_cons_of_mem _ hm)
    exact split_cons_ne sep c cs hc (ih hcs)

theorem split_append_cons (sep : Char) :
    ∀ (a b : List Char), sep ∉ a →
      splitSep sep (a ++ sep :: b) = a :: splitSep sep b := by
  intro a
  induction a with
  | nil => intro b _; exact split_cons_sep sep b
  | cons c a ih =>
    intro b h
    have hc : ¬ c = sep := fun he => h (by rw [he]; exact List.mem_cons_self _ _)
    have ha : sep ∉ a := fun hm => h (List.mem_cons_of_mem _ hm)
    rw [List.cons_append]
    exact split_cons_ne sep c (a ++ sep :: b) hc (ih b ha)

theorem sepFree_split (sep : Char) :
    ∀ (cs : List Char), ∀ s ∈ splitSep sep cs, sep ∉ s := by
  intro cs
  induction cs with
  | nil =>
    intro s hs
    rw [show splitSep sep [] = [[]] from rfl] at hs
    rw [List.mem_singleton.1 hs]
    simp
  | cons c cs ih =>
    intro s hs
    by_cases hc : c = sep
    · subst hc
      rw [split_cons_sep] at hs
      rcases List.mem_cons.1 hs with rfl | hs2
      · simp
      · exact ih s hs2
    · rcases hr : splitSep sep cs with _ | ⟨t, ts⟩
      · exact absurd hr (split_ne_nil sep cs)
      · rw [split_cons_ne sep c cs hc hr] at hs
        rcases List.mem_cons.1 hs with rfl | hs2
        · intro hm
          rcases List.mem_cons.1 hm with rfl | hm2
          · exact hc rfl
          · exact ih t (by rw [hr]; exact List.mem_cons_self _ _) hm2
        · exact ih s (by rw [hr]; exact List.mem_cons_of_mem _ hs2)

theorem join_append (sep : Char) :
    ∀ (xs ys : List (List Char)), xs ≠ [] → ys ≠ [] →
      joinSep sep (xs ++ ys) = joinSep sep xs ++ sep :: joinSep sep ys := by
  intro xs
  induction xs with
  | nil => intro ys h _; exact absurd rfl h
  | cons x xs ih =>
    intro ys _ hys
    rcases xs with _ | ⟨x2, xs2⟩
    · rcases ys with _ | ⟨y, ys2⟩
      · exact absurd rfl hys
      · rfl
    · rw [List.cons_append]
      show x ++ sep :: joinSep sep ((x2 :: xs2) ++ ys) =
        (x ++ sep :: joinSep sep (x2 :: xs2)) ++ sep :: joinSep sep ys
      rw [ih ys (by simp) hys]
      simp

theorem split_join (sep : Char) :
    ∀ ps : List (List Char), ps ≠ [] → (∀ s ∈ ps, sep ∉ s) →
      splitSep sep (joinSep sep ps) = ps := by
  intro ps
  induction ps with
  | nil => intro h _; exact absurd rfl h
  | cons p ps ih =>
    intro _ hfree
    rcases ps with _ | ⟨p2, ps2⟩
    · exact split_sepFree sep p (hfree p (List.mem_cons_self _ _))
    · rw [show joinSep sep (p :: p2 :: ps2) = p ++ sep :: joinSep sep (p2 :: ps2) from rfl]
      rw [split_append_cons sep p _ (hfree p (List.mem_cons_self _ _))]
      rw [ih (by simp) (fun s hs => hfree s (List.mem_cons_of_mem _ hs))]

theorem split_join_append (sep : Char) :
    ∀ (ps : List (List Char)) (b : List Char), ps ≠ [] → (∀ s ∈ ps, sep ∉ s) →
      splitSep sep (joinSep sep ps ++ sep :: b) = ps ++ splitSep sep b := by
  intro ps
  induction ps with
  | nil => intro b h _; exact absurd rfl h
  | cons p ps ih =>
    intro b _ hfree
    rcases ps with _ | ⟨p2, ps2⟩
    · exact split_append_cons sep p b (hfree p (List.mem_cons_self _ _))
    · rw [show joinSep sep (p :: p2 :: ps2) = p ++ sep :: joinSep sep (p2 :: ps2) from rfl]
      rw [List.append_assoc _ (sep :: joinSep sep (p2 :: ps2)) _]
      rw [show (sep :: joinSep sep (p2 :: ps2)) ++ sep :: b =
        sep :: (joinSep sep (p2 :: ps2) ++ sep :: b) from rfl]
      rw [split_append_cons sep p _ (hfree p (List.mem_cons_self _ _))]
      rw [ih b (by simp) (fun s hs => hfree s (List.mem_cons_of_mem _ hs))]
      rfl

theorem mem_stepSeg (abs : Bool) (acc : List (List Char)) (s t : List Char)
    (h : t ∈ stepSeg abs acc s) : t = ddSeg ∨ t ∈ acc ∨ t = s := by
  unfold stepSeg at h
  split at h
  · exact Or.inr (Or.inl h)
  · split at h
    · split at h
      · split at h
        · simp at h
        · exact Or.inl (List.mem_singleton.1 h)
      · split at h
        · rcases List.mem_cons.1 h with rfl | h2
          · exact Or.inl rfl
          · exact Or.inr (Or.inl h2)
        · exact Or.inr (Or.inl (List.mem_cons_of_mem _ h))
    · rcases List.mem_cons.1 h with rfl | h2
      · exact Or.inr (Or.inr rfl)
      · exact Or.inr (Or.inl h2)

theorem mem_foldl_stepSeg (abs : Bool) :
    ∀ (segs acc : List (List Char)) (t : List Char),
      t ∈ List.foldl (stepSeg abs) acc segs → t = ddSeg ∨ t ∈ acc ∨ t ∈ segs := by
  intro segs
  induction segs with
  | nil => intro acc t h; exact Or.inr (Or.inl h)
  | cons s segs ih =>
    intro acc t h
    rw [List.foldl_cons] at h
    rcases ih (stepSeg abs acc s) t h with h1 | h1 | h1
    · exact Or.inl h1
    · rcases mem_stepSeg abs acc s t h1 with h2 | h2 | h2
      · exact Or.inl h2
      · exact Or.inr (Or.inl h2)
      · exact Or.inr (Or.inr (by rw [h2]; exact List.mem_cons_self _ _))
    · exact Or.inr (Or.inr (List.mem_cons_of_mem _ h1))

theorem stepSeg_stackOk (abs : Bool) (acc : List (List Char)) (s : List Char)
    (h : stackOk abs acc) : stackOk abs (stepSeg abs acc s) := by
  obtain ⟨gs, k, rfl, hgs, habs⟩ := h
  unfold stepSeg
  split
  · exact ⟨gs, k, rfl, hgs, habs⟩
  · split
    · split
      · -- the stack is empty
        rename_i hemp
        have hgs0 : gs = [] := by
          rcases gs with _ | ⟨g, gs'⟩
          · rfl
          · simp at hemp
        have hk0 : k = 0 := by
          rcases k with _ | k2
          · rfl
          · rw [hgs0] at hemp
            simp [List.replicate] at hemp
        split
        · exact ⟨[], 0, rfl, by simp, fun _ => rfl⟩
        · rename_i habs2
          refine ⟨[], 1, by simp, by simp, fun hab => absurd hab habs2⟩
      · rename_i t acc' heq
        split
        · -- the top of the stack is ".."
          rename_i ht
          have hgs0 : gs = [] := by
            rcases gs with _ | ⟨g, gs'⟩
            · rfl
            · exfalso
              rw [List.cons_append] at heq
              injection heq with h1 _
              exact (hgs g (List.mem_cons_self _ _)).2.2 (h1.trans ht)
          subst hgs0
          simp only [List.nil_append] at heq
          rcases k with _ | k2
          · simp [List.replicate] at heq
          · rw [show List.replicate (k2 + 1) ddSeg = ddSeg :: List.replicate k2 ddSeg
              from rfl] at heq
            injection heq with h1 h2
            subst h2
            refine ⟨[], k2 + 2, ?_, by simp, fun hab => absurd (habs hab) (by simp)⟩
            rw [List.nil_append,
              show List.replicate (k2 + 2) ddSeg =
                ddSeg :: ddSeg :: List.replicate k2 ddSeg from rfl,
              ← h1]
        · -- pop a real segment
          rename_i ht
          rcases gs with _ | ⟨g, gs'⟩
          · exfalso
            rcases k with _ | k2
            · simp at heq
            · rw [show ([] : List (List Char)) ++ List.replicate (k2 + 1) ddSeg =
                ddSeg :: List.replicate k2 ddSeg from by simp [List.replicate]] at heq
              injection heq with h1 _
              exact ht h1.symm
          · rw [List.cons_append] at heq
            injection heq with h1 h2
            exact ⟨gs', k, h2.symm, fun x hx => hgs x (List.mem_cons_of_mem _ hx), habs⟩
    · -- push a real segment
      rename_i hns hnd
      refine ⟨s :: gs, k, by simp, ?_, habs⟩
      intro x hx
      rcases List.mem_cons.1 hx with rfl | hx2
      · exact ⟨fun h => hns (Or.inl h), fun h => hns (Or.inr h), hnd⟩
      · exact hgs x hx2

theorem foldl_stackOk (abs : Bool) :
    ∀ (segs acc : List (List Char)), stackOk abs acc →
      stackOk abs (List.foldl (stepSeg abs) acc segs) := by
  intro segs
  induction segs with
  | nil => intro acc h; exact h
  | cons s segs ih =>
    intro acc h
    rw [List.foldl_cons]
    exact ih _ (stepSeg_stackOk abs acc s h)

theorem runSegs_shape (abs : Bool) (segs : List (List Char)) :
    ∃ k gs, runSegs abs segs = List.replicate k ddSeg ++ gs ∧
      (∀ s ∈ gs, goodSeg s) ∧ (abs = true → k = 0) := by
  obtain ⟨gs, k, heq, hgs, habs⟩ :=
    foldl_stackOk abs segs [] ⟨[], 0, rfl, by simp, fun _ => rfl⟩
  refine ⟨k, gs.reverse, ?_, fun s hs => hgs s (List.mem_reverse.1 hs), habs⟩
  rw [runSegs, heq]
  simp

theorem foldl_stepSeg_noDD (abs : Bool) :
    ∀ (segs acc : List (List Char)), (∀ s ∈ segs, s ≠ ddSeg) →
      List.foldl (stepSeg abs) acc segs = (segs.filter keepB).reverse ++ acc := by
  intro segs
  induction segs with
  | nil => intro acc _; rfl
  | cons s segs ih =>
    intro acc hnodd
    rw [List.foldl_cons]
    have hs := hnodd s (List.mem_cons_self _ _)
    by_cases hskip : s = [] ∨ s = dotSeg
    · have hstep : stepSeg abs acc s = acc := by
        unfold stepSeg
        rw [if_pos hskip]
      have hk : keepB s = false := by
        unfold keepB
        rw [if_pos hskip]
      rw [hstep, ih acc (fun t ht => hnodd t (List.mem_cons_of_mem _ ht))]
      simp [List.filter_cons, hk]
    · have hstep : stepSeg abs acc s = s :: acc := by
        unfold stepSeg
        rw [if_neg hskip, if_neg hs]
      have hk : keepB s = true := by
        unfold keepB
        rw [if_neg hskip]
      rw [hstep, ih (s :: acc) (fun t ht => hnodd t (List.mem_cons_of_mem _ ht))]
      simp [List.filter_cons, hk]

theorem runSegs_noDD (abs : Bool) (segs : List (List Char))
    (h : ∀ s ∈ segs, s ≠ ddSeg) : runSegs abs segs = segs.filter keepB := by
  rw [runSegs, foldl_stepSeg_noDD abs segs [] h]
  simp

theorem runSegs_last (abs : Bool) (init : List (List Char)) (s : List Char)
    (hgood : goodSeg s) :
    ∃ pre, runSegs abs (init ++ [s]) = pre ++ [s] := by
  rw [runSegs, List.foldl_append]
  have hstep : List.foldl (stepSeg abs) (List.foldl (stepSeg abs) [] init) [s] =
      s :: List.foldl (stepSeg abs) [] init := by
    rw [List.foldl_cons, List.foldl_nil]
    unfold stepSeg
    rw [if_neg (fun hc => hc.elim (fun h => hgood.1 h) (fun h => hgood.2.1 h)),
      if_neg hgood.2.2]
  rw [hstep]
  exact ⟨(List.foldl (stepSeg abs) [] init).reverse, by simp⟩

theorem split_last_endsCL (sep : Char) (t : List Char) (hfree : sep ∉ t) :
    ∀ cs : List Char, endsCL t cs →
      ∃ init s, splitSep sep cs = init ++ [s] ∧ endsCL t s := by
  intro cs
  induction cs with
  | nil =>
    rintro ⟨a, ha⟩
    have ht : t = [] := (List.append_eq_nil.1 ha.symm).2
    exact ⟨[], [], rfl, ⟨[], by simp [ht]⟩⟩
  | cons c cs ih =>
    rintro ⟨a, ha⟩
    by_cases hc : c = sep
    · subst hc
      rcases a with _ | ⟨a1, a'⟩
      · exfalso
        apply hfree
        simp only [List.nil_append] at ha
        rw [← ha]
        exact List.mem_cons_self _ _
      · rw [List.cons_append] at ha
        injection ha with h1 h2
        obtain ⟨init, s2, hsp, hend⟩ := ih ⟨a', h2⟩
        exact ⟨[] :: init, s2, by rw [split_cons_sep, hsp]; rfl, hend⟩
    · rcases a with _ | ⟨a1, a'⟩
      · simp only [List.nil_append] at ha
        have hfr : sep ∉ c :: cs := by rw [ha]; exact hfree
        exact ⟨[], c :: cs, split_sepFree sep _ hfr, ⟨[], by rw [ha]; rfl⟩⟩
      · rw [List.cons_append] at ha
        injection ha with h1 h2
        obtain ⟨init, s2, hsp, hend⟩ := ih ⟨a', h2⟩
        rcases init with _ | ⟨i0, init'⟩
        · simp only [List.nil_append] at hsp
          refine ⟨[], c :: s2, split_cons_ne sep c cs hc hsp, ?_⟩
          obtain ⟨b, hb⟩ := hend
          exact ⟨c :: b, by rw [hb]; rfl⟩
        · have hsp' : splitSep sep cs = i0 :: (init' ++ [s2]) := by
            rw [hsp]; rfl
          refine ⟨(c :: i0) :: init', s2, ?_, hend⟩
          rw [split_cons_ne sep c cs hc hsp']
          rfl

theorem endsCL_append (t a cs : List Char) (h : endsCL t cs) : endsCL t (a ++ cs) := by
  obtain ⟨b, rfl⟩ := h
  exact ⟨a ++ b, by simp⟩

theorem endsCL_cons (t : List Char) (c : Char) (cs : List Char) (h : endsCL t cs) :
    endsCL t (c :: cs) := endsCL_append t [c] cs h

theorem endsCL_ht_ne_nil {cs : List Char} (h : endsCL htmlExt cs) : cs ≠ [] := by
  obtain ⟨a, rfl⟩ := h
  simp [htmlExt]

theorem endsCL_ht_goodSeg {s : List Char} (h : endsCL htmlExt s) : goodSeg s := by
  obtain ⟨a, rfl⟩ := h
  refine ⟨by simp [htmlExt], ?_, ?_⟩
  · intro he
    have hl := congrArg List.length he
    simp [htmlExt, dotSeg] at hl
  · intro he
    have hl := congrArg List.length he
    simp [htmlExt, ddSeg] at hl

theorem endsCL_ht_reverse_head {cs : List Char} (h : endsCL htmlExt cs) :
    cs.reverse.head? = some 'l' := by
  obtain ⟨a, rfl⟩ := h
  rw [List.reverse_append,
    show List.reverse htmlExt = ['l', 'm', 't', 'h', '.'] from rfl]
  rfl

theorem runSegs_sepFree (abs : Bool) (cs : List Char) :
    ∀ s ∈ runSegs abs (splitSep '/' cs), '/' ∉ s := by
  intro s hs
  rw [runSegs] at hs
  rcases mem_foldl_stepSeg abs (splitSep '/' cs) [] s (List.mem_reverse.1 hs) with
    h1 | h1 | h1
  · rw [h1]
    simp [ddSeg]
  · simp at h1
  · exact sepFree_split '/' cs s h1

theorem joinSep_last_endsCL (pre : List (List Char)) (slast : List Char)
    (h : endsCL htmlExt slast) : endsCL htmlExt (joinSep '/' (pre ++ [slast])) := by
  rcases pre with _ | ⟨p0, pre'⟩
  · simpa using h
  · rw [join_append '/' (p0 :: pre') [slast] (by simp) (by simp)]
    exact endsCL_append _ _ _ (endsCL_cons _ _ _ h)

theorem normalize_endsHtml (cs : List Char) (h : endsCL htmlExt cs) :
    okShape (normalizeCL cs) ∧ endsCL htmlExt (normalizeCL cs) := by
  have hne : cs ≠ [] := endsCL_ht_ne_nil h
  have htr : (cs.reverse.head? == some '/') = false := by
    rw [endsCL_ht_reverse_head h]
    rfl
  obtain ⟨init, slast, hsp, hendlast⟩ :=
    split_last_endsCL '/' htmlExt (by simp [htmlExt]) cs h
  have hgoodlast : goodSeg slast := endsCL_ht_goodSeg hendlast
  unfold normalizeCL
  rw [if_neg hne]
  simp only [htr, Bool.false_eq_true, if_false, List.append_nil]
  cases habsb : (cs.head? == some '/') with
  | true =>
    obtain ⟨pre, hrun⟩ := runSegs_last true init slast hgoodlast
    rw [← hsp] at hrun
    obtain ⟨k, gs, hshape, hgood, habs0⟩ := runSegs_shape true (splitSep '/' cs)
    have hk0 : k = 0 := habs0 rfl
    subst hk0
    simp only [List.replicate, List.nil_append] at hshape
    have houtne : runSegs true (splitSep '/' cs) ≠ [] := by
      rw [hrun]
      simp
    have hcoreend : endsCL htmlExt (joinSep '/' (runSegs true (splitSep '/' cs))) := by
      rw [hrun]
      exact joinSep_last_endsCL pre slast hendlast
    have hcorene : joinSep '/' (runSegs true (splitSep '/' cs)) ≠ [] :=
      endsCL_ht_ne_nil hcoreend
    have hsplitcore : splitSep '/' (joinSep '/' (runSegs true (splitSep '/' cs))) =
        runSegs true (splitSep '/' cs) :=
      split_join '/' _ houtne (runSegs_sepFree true cs)
    rw [if_neg hcorene, if_pos rfl]
    constructor
    · refine ⟨0, [] :: gs, ?_, ?_⟩
      · rw [split_cons_sep, hsplitcore, hshape]
        rfl
      · intro s hs
        rcases List.mem_cons.1 hs with rfl | hs2
        · simp [ddSeg]
        · exact (hgood s hs2).2.2
    · exact endsCL_cons _ _ _ hcoreend
  | false =>
    obtain ⟨pre, hrun⟩ := runSegs_last false init slast hgoodlast
    rw [← hsp] at hrun
    obtain ⟨k, gs, hshape, hgood, habs0⟩ := runSegs_shape false (splitSep '/' cs)
    have houtne : runSegs false (splitSep '/' cs) ≠ [] := by
      rw [hrun]
      simp
    have hcoreend : endsCL htmlExt (joinSep '/' (runSegs false (splitSep '/' cs))) := by
      rw [hrun]
      exact joinSep_last_endsCL pre slast hendlast
    have hcorene : joinSep '/' (runSegs false (splitSep '/' cs)) ≠ [] :=
      endsCL_ht_ne_nil hcoreend
    have hsplitcore : splitSep '/' (joinSep '/' (runSegs false (splitSep '/' cs))) =
        runSegs false (splitSep '/' cs) :=
      split_join '/' _ houtne (runSegs_sepFree false cs)
    rw [if_neg hcorene]
    simp only [Bool.false_eq_true, if_false]
    constructor
    · refine ⟨k, gs, ?_, fun s hs => (hgood s hs).2.2⟩
      rw [hsplitcore, hshape]
    · exact hcoreend

theorem split_ddslash (rest : List Char) :
    splitSep '/' ('.' :: '.' :: '/' :: rest) = ddSeg :: splitSep '/' rest := by
  have h1 := split_cons_sep '/' rest
  have h2 := split_cons_ne '/' '.' ('/' :: rest) (by decide) h1
  have h3 := split_cons_ne '/' '.' ('.' :: '/' :: rest) (by decide) h2
  simpa [ddSeg] using h3

theorem split_ddbslash (rest : List Char) :
    ∃ h0 t0, splitSep '/' rest = h0 :: t0 ∧
      splitSep '/' ('.' :: '.' :: '\\' :: rest) = ('.' :: '.' :: '\\' :: h0) :: t0 := by
  rcases hr : splitSep '/' rest with _ | ⟨h0, t0⟩
  · exact absurd hr (split_ne_nil _ _)
  · refine ⟨h0, t0, rfl, ?_⟩
    have h1 := split_cons_ne '/' '\\' rest (by decide) hr
    have h2 := split_cons_ne '/' '.' ('\\' :: rest) (by decide) h1
    exact split_cons_ne '/' '.' ('.' :: '\\' :: rest) (by decide) h2

theorem stripDots_safe :
    ∀ (n : Nat) (cs : List Char), cs.length ≤ n → okShape cs → endsCL htmlExt cs →
      (∀ s ∈ splitSep '/' (stripDots cs), s ≠ ddSeg) ∧ endsCL htmlExt (stripDots cs) := by
  intro n
  induction n with
  | zero =>
    intro cs hlen hok hend
    exfalso
    obtain ⟨a, rfl⟩ := hend
    simp [htmlExt] at hlen
  | succ n ih =>
    intro cs hlen hok hend
    obtain ⟨a, ha⟩ := hend
    rcases cs with _ | ⟨c1, cs1⟩
    · exfalso
      have := congrArg List.length ha
      simp [htmlExt] at this
    rcases cs1 with _ | ⟨c2, cs2⟩
    · exfalso
      have := congrArg List.length ha
      simp [htmlExt] at this
    rcases cs2 with _ | ⟨c3, rest⟩
    · exfalso
      have := congrArg List.length ha
      simp [htmlExt] at this
    by_cases hp : c1 = '.' ∧ c2 = '.' ∧ (c3 = '/' ∨ c3 = '\\')
    · have hstrip : stripDots (c1 :: c2 :: c3 :: rest) = stripDots rest := by
        show (if c1 = '.' ∧ c2 = '.' ∧ (c3 = '/' ∨ c3 = '\\') then stripDots rest
          else c1 :: c2 :: c3 :: rest) = stripDots rest
        rw [if_pos hp]
      obtain ⟨rfl, rfl, hc3⟩ := hp
      have hrest_end : endsCL htmlExt rest := by
        rcases a with _ | ⟨a1, a'⟩
        · exfalso
          simp only [List.nil_append, htmlExt] at ha
          injection ha with _ ha2
          injection ha2 with h2 _
          exact absurd h2 (by decide)
        rcases a' with _ | ⟨a2, a''⟩
        · exfalso
          simp only [List.cons_append, List.nil_append, htmlExt] at ha
          injection ha with _ ha2
          injection ha2 with _ ha3
          injection ha3 with h3 _
          rcases hc3 with rfl | rfl <;> exact absurd h3 (by decide)
        rcases a'' with _ | ⟨a3, a3'⟩
        · exfalso
          simp only [List.cons_append, List.nil_append, htmlExt] at ha
          injection ha with _ ha2
          injection ha2 with _ ha3
          injection ha3 with h3 _
          rcases hc3 with rfl | rfl <;> exact absurd h3 (by decide)
        · simp only [List.cons_append] at ha
          injection ha with _ ha2
          injection ha2 with _ ha3
          injection ha3 with _ ha4
          exact ⟨a3', ha4⟩
      have hok_rest : okShape rest := by
        obtain ⟨k, gs, hsp2, hnodd⟩ := hok
        rcases hc3 with rfl | rfl
        · rw [split_ddslash rest] at hsp2
          rcases k with _ | k2
          · exfalso
            simp only [List.replicate, List.nil_append] at hsp2
            exact hnodd ddSeg (by rw [← hsp2]; exact List.mem_cons_self _ _) rfl
          · rw [show List.replicate (k2 + 1) ddSeg = ddSeg :: List.replicate k2 ddSeg
              from rfl, List.cons_append] at hsp2
            injection hsp2 with _ h2
            exact ⟨k2, gs, h2, hnodd⟩
        · obtain ⟨h0, t0, hr0, hsp3⟩ := split_ddbslash rest
          rw [hsp3] at hsp2
          rcases k with _ | k2
          · simp only [List.replicate, List.nil_append] at hsp2
            have ht0 : ∀ s ∈ t0, s ≠ ddSeg := by
              intro s hs
              apply hnodd
              rw [← hsp2]
              exact List.mem_cons_of_mem _ hs
            by_cases hh0 : h0 = ddSeg
            · exact ⟨1, t0, by rw [hr0, hh0]; rfl, ht0⟩
            · refine ⟨0, h0 :: t0, by rw [hr0]; rfl, ?_⟩
              intro s hs
              rcases List.mem_cons.1 hs with rfl | hs2
              · exact hh0
              · exact ht0 s hs2
          · exfalso
            rw [show List.replicate (k2 + 1) ddSeg = ddSeg :: List.replicate k2 ddSeg
              from rfl, List.cons_append] at hsp2
            injection hsp2 with h1 _
            have hlen2 := congrArg List.length h1
            simp only [ddSeg, List.length_cons, List.length_nil] at hlen2
            omega
      rw [hstrip]
      apply ih rest ?_ hok_rest hrest_end
      simp only [List.length_cons] at hlen
      omega
    · have hstrip : stripDots (c1 :: c2 :: c3 :: rest) = c1 :: c2 :: c3 :: rest := by
        show (if c1 = '.' ∧ c2 = '.' ∧ (c3 = '/' ∨ c3 = '\\') then stripDots rest
          else c1 :: c2 :: c3 :: rest) = c1 :: c2 :: c3 :: rest
        rw [if_neg hp]
      rw [hstrip]
      refine ⟨?_, ⟨a, ha⟩⟩
      obtain ⟨k, gs, hsp2, hnodd⟩ := hok
      rcases k with _ | k2
      · simp only [List.replicate, List.nil_append] at hsp2
        rw [hsp2]
        exact hnodd
      · exfalso
        have hjs := join_split '/' (c1 :: c2 :: c3 :: rest)
        rw [hsp2, show List.replicate (k2 + 1) ddSeg = ddSeg :: List.replicate k2 ddSeg
          from rfl, List.cons_append] at hjs
        rcases hrest2 : List.replicate k2 ddSeg ++ gs with _ | ⟨r0, rtl⟩
        · rw [hrest2] at hjs
          have he : c1 :: c2 :: c3 :: rest = ddSeg := by
            rw [← hjs]
            rfl
          have := congrArg List.length he
          simp [ddSeg] at this
        · rw [hrest2] at hjs
          have he : '.' :: '.' :: '/' :: joinSep '/' (r0 :: rtl) =
              c1 :: c2 :: c3 :: rest := by
            rw [← hjs]
            rfl
          injection he with e1 he2
          injection he2 with e2 he3
          injection he3 with e3 _
          exact hp ⟨e1.symm, e2.symm, Or.inl e3.symm⟩

theorem stripDots_noDD (cs : List Char) (hok : okShape cs) (hend : endsCL htmlExt cs) :
    (∀ s ∈ splitSep '/' (stripDots cs), s ≠ ddSeg) ∧ endsCL htmlExt (stripDots cs) :=
  stripDots_safe cs.length cs (le_refl _) hok hend

theorem leadsWith_iff : ∀ t s : List Char, leadsWith t s = true ↔ ∃ u, s = t ++ u := by
  intro t
  induction t with
  | nil =>
    intro s
    simp [leadsWith]
  | cons c t ih =>
    intro s
    rcases s with _ | ⟨d, s'⟩
    · constructor
      · intro h
        cases h
      · rintro ⟨u, hu⟩
        cases hu
    · simp only [leadsWith, Bool.and_eq_true, beq_iff_eq]
      constructor
      · rintro ⟨rfl, h2⟩
        obtain ⟨u, rfl⟩ := (ih s').1 h2
        exact ⟨u, rfl⟩
      · rintro ⟨u, hu⟩
        injection hu with h1 h2
        exact ⟨h1.symm, (ih s').2 ⟨u, h2⟩⟩

theorem closesWith_iff (t cs : List Char) : closesWith t cs = true ↔ endsCL t cs := by
  unfold closesWith endsCL
  rw [leadsWith_iff]
  constructor
  · rintro ⟨u, hu⟩
    refine ⟨u.reverse, ?_⟩
    have h2 := congrArg List.reverse hu
    simpa using h2
  · rintro ⟨a, rfl⟩
    exact ⟨a.reverse, by simp⟩

theorem keepB_true_of_good {s : List Char} (h : goodSeg s) : keepB s = true := by
  unfold keepB
  rw [if_neg (fun hc => hc.elim (fun h2 => h.1 h2) (fun h2 => h.2.1 h2))]

theorem good_of_keepB_noDD {s : List Char} (h1 : keepB s = true) (h2 : s ≠ ddSeg) :
    goodSeg s := by
  unfold keepB at h1
  by_cases hc : s = [] ∨ s = dotSeg
  · rw [if_pos hc] at h1
    cases h1
  · push_neg at hc
    exact ⟨hc.1, hc.2, h2⟩

theorem joinCL_safe (ps : List (List Char)) (r : List Char)
    (hps : ps ≠ []) (hgood : ∀ s ∈ ps, goodSeg s ∧ '/' ∉ s)
    (hnodd : ∀ s ∈ splitSep '/' r, s ≠ ddSeg)
    (hend : endsCL htmlExt r) :
    ∃ ts, ts ≠ [] ∧ (∀ s ∈ ts, goodSeg s) ∧
      joinCL ('/' :: joinSep '/' ps) r =
        ('/' :: joinSep '/' ps) ++ '/' :: joinSep '/' ts := by
  have hrne : r ≠ [] := endsCL_ht_ne_nil hend
  have hsplit : splitSep '/' ('/' :: (joinSep '/' ps ++ '/' :: r)) =
      [] :: (ps ++ splitSep '/' r) := by
    rw [split_cons_sep, split_join_append '/' ps r hps (fun s hs => (hgood s hs).2)]
  have hnodd2 : ∀ s ∈ [] :: (ps ++ splitSep '/' r), s ≠ ddSeg := by
    intro s hs
    rcases List.mem_cons.1 hs with rfl | hs2
    · simp [ddSeg]
    · rcases List.mem_append.1 hs2 with h3 | h3
      · exact (hgood s h3).1.2.2
      · exact hnodd s h3
  obtain ⟨init, slast, hspr, hendlast⟩ :=
    split_last_endsCL '/' htmlExt (by simp [htmlExt]) r hend
  have hgoodlast := endsCL_ht_goodSeg hendlast
  have hfilterps : ps.filter keepB = ps :=
    List.filter_eq_self.mpr (fun s hs => keepB_true_of_good (hgood s hs).1)
  have hslast_mem : slast ∈ (splitSep '/' r).filter keepB := by
    rw [List.mem_filter]
    exact ⟨by rw [hspr]; exact List.mem_append.2 (Or.inr (List.mem_singleton.2 rfl)),
      keepB_true_of_good hgoodlast⟩
  have htsne : (splitSep '/' r).filter keepB ≠ [] := List.ne_nil_of_mem hslast_mem
  have htsgood : ∀ s ∈ (splitSep '/' r).filter keepB, goodSeg s := by
    intro s hs
    rw [List.mem_filter] at hs
    exact good_of_keepB_noDD hs.2 (hnodd s hs.1)
  refine ⟨(splitSep '/' r).filter keepB, htsne, htsgood, ?_⟩
  have hendcs : endsCL htmlExt ('/' :: (joinSep '/' ps ++ '/' :: r)) :=
    endsCL_cons _ _ _ (endsCL_append _ _ _ (endsCL_cons _ _ _ hend))
  have htr : (('/' :: (joinSep '/' ps ++ '/' :: r)).reverse.head? == some '/') = false := by
    rw [endsCL_ht_reverse_head hendcs]
    rfl
  have hfilter : ([] :: (ps ++ splitSep '/' r)).filter keepB =
      ps ++ (splitSep '/' r).filter keepB := by
    rw [show ([] :: (ps ++ splitSep '/' r)).filter keepB =
      (ps ++ splitSep '/' r).filter keepB from by simp [List.filter_cons, keepB]]
    rw [List.filter_append, hfilterps]
  have hjoinne : joinSep '/' (ps ++ (splitSep '/' r).filter keepB) ≠ [] := by
    rw [join_append '/' ps _ hps htsne]
    simp
  unfold joinCL
  rw [if_neg (by simp), if_neg hrne]
  rw [show ('/' :: joinSep '/' ps) ++ '/' :: r =
    '/' :: (joinSep '/' ps ++ '/' :: r) from rfl]
  unfold normalizeCL
  rw [if_neg (by simp)]
  simp only [List.head?_cons, htr, Bool.false_eq_true, if_false, List.append_nil]
  rw [show ((some '/' == some '/') : Bool) = true from rfl]
  rw [hsplit, runSegs_noDD true _ hnodd2, hfilter]
  rw [if_neg hjoinne, if_pos rfl]
  rw [join_append '/' ps _ hps htsne]
  rfl

/-- C6: for every request path that `serveStaticHtml` serves (a `.html`
path, after mapping `/` to `/index.html`), the resolved file path is the
public root followed by a nonempty sequence of real path segments — no
`..`, `.` or empty segment — so no request, in particular none containing
`../` sequences, resolves outside the public directory. -/
theorem static_resolution_stays_in_public (pub p fp : String) (ps : List (List Char))
    (hpub : pub.data = '/' :: joinSep '/' ps)
    (hps : ps ≠ []) (hgoodps : ∀ s ∈ ps, goodSeg s ∧ '/' ∉ s)
    (h : serveStaticPath pub p = some fp) :
    ∃ ts, ts ≠ [] ∧ (∀ s ∈ ts, goodSeg s) ∧
      fp.data = pub.data ++ '/' :: joinSep '/' ts := by
  unfold serveStaticPath at h
  by_cases hcl : closesWith htmlExt (if p = "/" then "/index.html" else p).data = true
  · rw [if_pos hcl] at h
    injection h with h
    have hend : endsCL htmlExt (if p = "/" then "/index.html" else p).data :=
      (closesWith_iff _ _).1 hcl
    obtain ⟨hok, hend2⟩ := normalize_endsHtml _ hend
    obtain ⟨hnodd, hend3⟩ := stripDots_noDD _ hok hend2
    have heq := joinCL_safe ps
      (stripDots (normalizeCL (if p = "/" then "/index.html" else p).data))
      hps hgoodps hnodd hend3
    obtain ⟨ts, htsne, htsgood, heq2⟩ := heq
    refine ⟨ts, htsne, htsgood, ?_⟩
    subst h
    show joinCL pub.data
      (stripDots (normalizeCL (if p = "/" then "/index.html" else p).data)) =
        pub.data ++ '/' :: joinSep '/' ts
    rw [hpub]
    exact heq2
  · rw [if_neg hcl] at h
    cases h

/-- C6 witness: a traversal attempt against a concrete public root resolves
to a path inside it. -/
theorem static_resolution_witness :
    ∃ ts, ts ≠ [] ∧ (∀ s ∈ ts, goodSeg s) ∧
      ("/srv/public/etc/passwd.html" : String).data =
        ("/srv/public" : String).data ++ '/' :: joinSep '/' ts :=
  static_resolution_stays_in_public "/srv/public" "/../../etc/passwd.html"
    "/srv/public/etc/passwd.html"
    [['s', 'r', 'v'], ['p', 'u', 'b', 'l', 'i', 'c']]
    rfl (by decide)
    (by
      intro s hs
      rcases List.mem_cons.1 hs with rfl | hs2
      · exact ⟨⟨by decide, by decide, by decide⟩, by decide⟩
      rcases List.mem_cons.1 hs2 with rfl | hs3
      · exact ⟨⟨by decide, by decide, by decide⟩, by decide⟩
      · cases hs3)
    rfl

end ItemsServer
